import Mathlib

/-
Verification development for the IndustrialSafety QA service.

The repository implements a retrieval-and-reranking question answering
pipeline over industrial-safety PDF documents.  This file gives a shallow
embedding of the core algorithmic functions of qa_app (utils.py,
reranker.py, embeddings.py, views.py and the Django data model) and proves
or refutes the specified properties against it.

Modelling conventions:
  - Python strings are modelled as List Char; the regex character classes
    are the ASCII fragments of the Python classes.
  - Python floats are modelled as rationals; numpy elementwise array
    arithmetic becomes elementwise list arithmetic.
  - numpy argsort is modelled as a stable ascending sort on indices
    (numpy uses insertion sort for the small candidate arrays that occur
    here, which is stable), followed by reversal, exactly as the source
    computes np.argsort(combined_scores) and then reverses it.
  - External collaborators (PyPDF2, SentenceTransformer, ChromaDB, the
    rank_bm25 library and the sklearn stop word list) are modelled as
    parameters: the chroma collection is an optional query function, the
    BM25 raw score vector and the stop word predicate are inputs.
  - The Django ORM tables are modelled as in-memory lists; the unique
    constraint on (document, chunk_index) declared in models.py makes a
    conflicting create fail, modelled with Except.
-/

set_option maxRecDepth 10000

namespace IndustrialSafetyQA

/-- ASCII fragment of the Python regex whitespace class used by the code. -/
def isPyWs (c : Char) : Bool :=
  c = ' ' || c = '\t' || c = '\n' || c = '\r' || c = '\x0b' || c = '\x0c'

/-- ASCII fragment of the Python regex word character class. -/
def isWordChar (c : Char) : Bool := c.isAlphanum || c = '_'

/-- Sentence terminator characters used by the chunker and the truncation
function: period, exclamation mark, question mark. -/
def isTermin (c : Char) : Bool := c = '.' || c = '!' || c = '?'

/-- Helper for splitWs: accumulates the current word (reversed). -/
def splitWsAux : List Char → List Char → List (List Char)
  | [], acc => if acc.isEmpty then [] else [acc.reverse]
  | c :: rest, acc =>
    if isPyWs c then
      if acc.isEmpty then splitWsAux rest []
      else acc.reverse :: splitWsAux rest []
    else splitWsAux rest (c :: acc)

/-- Python str.split() with no argument: split on whitespace runs,
dropping empty fields. -/
def splitWs (cs : List Char) : List (List Char) := splitWsAux cs []

/-- Number of words of a text, as computed by len(text.split()). -/
def wordCount (cs : List Char) : Nat := (splitWs cs).length

/-- Python sep.join for a single space separator. -/
def joinSpaces (ws : List (List Char)) : List Char := List.intercalate [' '] ws

/-- Helper for collapseRuns; the Bool flag records whether we are inside a
run of characters satisfying p whose replacement was already emitted. -/
def collapseRunsAux (p : Char → Bool) (r : Char) : List Char → Bool → List Char
  | [], _ => []
  | c :: rest, inRun =>
    if p c then
      if inRun then collapseRunsAux p r rest true
      else r :: collapseRunsAux p r rest true
    else c :: collapseRunsAux p r rest false

/-- Replace every maximal nonempty run of characters satisfying p by the
single character r.  This is the effect of the Python substitutions that
collapse multiple dots, multiple hyphens and whitespace runs (a run of
length one is replaced by r as well, which for the dot and hyphen
patterns of the source coincides with leaving it unchanged). -/
def collapseRuns (p : Char → Bool) (r : Char) (cs : List Char) : List Char :=
  collapseRunsAux p r cs false

/-- Python str.strip(): remove leading and trailing whitespace. -/
def stripWs (cs : List Char) : List Char :=
  ((cs.dropWhile isPyWs).reverse.dropWhile isPyWs).reverse

/-- Matcher for the tail of the pattern that removes page numbers: after
the literal Page, require one or more whitespace characters, one or more
digits, and a word boundary.  Returns the matched tail length. -/
def pageTail (cs : List Char) : Option Nat :=
  let ws := cs.takeWhile isPyWs
  if ws.isEmpty then none
  else
    let rest1 := cs.drop ws.length
    let ds := rest1.takeWhile Char.isDigit
    if ds.isEmpty then none
    else
      match rest1.drop ds.length with
      | [] => some (ws.length + ds.length)
      | d :: _ => if isWordChar d then none else some (ws.length + ds.length)

/-- Length of a match of the page number pattern at the current position,
given whether the previous character of the original string is a word
character (for the leading word boundary). -/
def pageMatchLen (prevWord : Bool) (cs : List Char) : Option Nat :=
  if prevWord then none
  else
    match cs with
    | c1 :: c2 :: c3 :: c4 :: rest =>
      if c1 = 'P' ∧ c2 = 'a' ∧ c3 = 'g' ∧ c4 = 'e' then
        match pageTail rest with
        | some n => some (4 + n)
        | none => none
      else none
    | _ => none

/-- Scanner for the substitution removing page number patterns, tracking
whether the previous character is a word character.  The fuel argument
(initially the length of the list) makes the recursion structural; when
it runs out the rest of the list is returned unchanged, a case never
reached from the top level entry point. -/
def removePageAux : Nat → Bool → List Char → List Char
  | _, _, [] => []
  | 0, _, cs => cs
  | fuel + 1, prevWord, c :: rest =>
    match pageMatchLen prevWord (c :: rest) with
    | some n => removePageAux fuel true (rest.drop (n - 1))
    | none => c :: removePageAux fuel (isWordChar c) rest

/-- Python substitution removing Page N patterns. -/
def removePage (cs : List Char) : List Char := removePageAux cs.length false cs

/-- Length of a match of the N of M pattern at the current position. -/
def nofmMatchLen (prevWord : Bool) (cs : List Char) : Option Nat :=
  if prevWord then none
  else
    let ds1 := cs.takeWhile Char.isDigit
    if ds1.isEmpty then none
    else
      let r1 := cs.drop ds1.length
      let ws1 := r1.takeWhile isPyWs
      if ws1.isEmpty then none
      else
        match r1.drop ws1.length with
        | 'o' :: 'f' :: r2 =>
          let ws2 := r2.takeWhile isPyWs
          if ws2.isEmpty then none
          else
            let r3 := r2.drop ws2.length
            let ds2 := r3.takeWhile Char.isDigit
            if ds2.isEmpty then none
            else
              match r3.drop ds2.length with
              | [] => some (ds1.length + ws1.length + 2 + ws2.length + ds2.length)
              | d :: _ =>
                if isWordChar d then none
                else some (ds1.length + ws1.length + 2 + ws2.length + ds2.length)
        | _ => none

/-- Scanner for the substitution removing N of M patterns, structural on a
fuel argument as removePageAux. -/
def removeNofMAux : Nat → Bool → List Char → List Char
  | _, _, [] => []
  | 0, _, cs => cs
  | fuel + 1, prevWord, c :: rest =>
    match nofmMatchLen prevWord (c :: rest) with
    | some n => removeNofMAux fuel true (rest.drop (n - 1))
    | none => c :: removeNofMAux fuel (isWordChar c) rest

/-- Python substitution removing N of M patterns. -/
def removeNofM (cs : List Char) : List Char := removeNofMAux cs.length false cs

/-- Length of a match of the URL pattern (the literal http followed by one
or more non whitespace characters) at the current position. -/
def urlMatchLen (cs : List Char) : Option Nat :=
  match cs with
  | c1 :: c2 :: c3 :: c4 :: rest =>
    if c1 = 'h' ∧ c2 = 't' ∧ c3 = 't' ∧ c4 = 'p' then
      let s := rest.takeWhile (fun c => !isPyWs c)
      if s.isEmpty then none else some (4 + s.length)
    else none
  | _ => none

/-- Scanner for the substitution removing URLs, structural on a fuel
argument as removePageAux. -/
def removeUrlsAux : Nat → List Char → List Char
  | _, [] => []
  | 0, cs => cs
  | fuel + 1, c :: rest =>
    match urlMatchLen (c :: rest) with
    | some n => removeUrlsAux fuel (rest.drop (n - 1))
    | none => c :: removeUrlsAux fuel rest

/-- Python substitution removing URLs. -/
def removeUrls (cs : List Char) : List Char := removeUrlsAux cs.length cs

/-- Scanner for the substitution removing email like tokens: a maximal non
whitespace run is removed from the leftmost position from which the
pattern (one or more non whitespace characters, an at sign, one or more
non whitespace characters) matches; greedy matching makes any such match
extend to the end of the run. -/
def removeEmailsAux : Nat → List Char → List Char
  | _, [] => []
  | 0, cs => cs
  | fuel + 1, c :: rest =>
    if isPyWs c then c :: removeEmailsAux fuel rest
    else
      let run := c :: rest.takeWhile (fun d => !isPyWs d)
      if ((run.drop 1).dropLast).contains '@' then
        removeEmailsAux fuel (rest.drop (run.length - 1))
      else c :: removeEmailsAux fuel rest

/-- Python substitution removing email like tokens. -/
def removeEmails (cs : List Char) : List Char := removeEmailsAux cs.length cs

/-- Shallow embedding of clean_text from qa_app/utils.py: remove page
number patterns, N of M patterns, URLs and emails, collapse runs of dots,
hyphens and whitespace, and strip the ends. -/
def cleanText (cs : List Char) : List Char :=
  if cs.isEmpty then []
  else
    stripWs (collapseRuns isPyWs ' '
      (collapseRuns (fun c => c = '-') '-'
        (collapseRuns (fun c => c = '.') '.'
          (removeEmails (removeUrls (removeNofM (removePage cs)))))))

/-- Helper for splitSentences: acc is the current segment reversed, whose
head is the character immediately before the current position; the flag
records that we are inside a separator whitespace run. -/
def splitSentencesAux : List Char → List Char → Bool → List (List Char)
  | [], acc, _ => [acc.reverse]
  | c :: rest, acc, inSep =>
    if inSep then
      if isPyWs c then splitSentencesAux rest [] true
      else splitSentencesAux rest [c] false
    else
      if isPyWs c && (match acc with | p :: _ => isTermin p | [] => false) then
        acc.reverse :: splitSentencesAux rest [] true
      else splitSentencesAux rest (c :: acc) false

/-- Sentence splitting of chunk_text: split on whitespace runs that are
immediately preceded by a sentence terminator (the lookbehind regex of
the source). -/
def splitSentences (cs : List Char) : List (List Char) :=
  splitSentencesAux cs [] false

/-- The sentence accumulation loop of chunk_text.  State: emitted chunks,
current chunk as a sentence list, current word count. -/
def chunkLoop (chunkSize overlap : Nat) :
    List (List Char) → List (List Char) → List (List Char) → Nat → List (List Char)
  | [], chunks, cur, _ =>
    if cur.isEmpty then chunks else chunks ++ [joinSpaces cur]
  | s :: ss, chunks, cur, curLen =>
    let sl := wordCount s
    if chunkSize < curLen + sl && !cur.isEmpty then
      let chunks2 := chunks ++ [joinSpaces cur]
      let cur2 := cur.drop (cur.length - overlap)
      let len2 := wordCount (joinSpaces cur2)
      chunkLoop chunkSize overlap ss chunks2 (cur2 ++ [s]) (len2 + sl)
    else chunkLoop chunkSize overlap ss chunks (cur ++ [s]) (curLen + sl)

/-- Shallow embedding of chunk_text from qa_app/utils.py. -/
def chunkText (text : List Char) (chunkSize : Nat := 300) (overlap : Nat := 50) :
    List (List Char) :=
  let t := cleanText text
  if t.isEmpty || wordCount t < 20 then []
  else chunkLoop chunkSize overlap (splitSentences t) [] [] 0

/-- Helper for wordRuns: accumulates the current token (reversed). -/
def wordRunsAux : List Char → List Char → List (List Char)
  | [], acc => if acc.isEmpty then [] else [acc.reverse]
  | c :: rest, acc =>
    if isWordChar c then wordRunsAux rest (c :: acc)
    else if acc.isEmpty then wordRunsAux rest []
    else acc.reverse :: wordRunsAux rest []

/-- Maximal runs of word characters, the effect of findall with the word
pattern used by the tokenizer of HybridReranker. -/
def wordRuns (cs : List Char) : List (List Char) := wordRunsAux cs []

/-- Shallow embedding of the tokenize method of HybridReranker: lowercase,
extract word character runs, drop stop words and tokens of length at most
two.  The stop word set (sklearn English stop words) is an external
constant modelled as the predicate stop. -/
def tokenize (stop : List Char → Bool) (text : List Char) : List (List Char) :=
  (wordRuns (text.map Char.toLower)).filter (fun t => !stop t && 2 < t.length)

/-- Shallow embedding of the calculate_title_match method: the fraction of
distinct query tokens that occur among the title tokens; zero when the
query has no tokens. -/
def titleMatch (stop : List Char → Bool) (query title : List Char) : ℚ :=
  let qw := (tokenize stop query).dedup
  let tw := (tokenize stop title).dedup
  if qw.isEmpty then 0
  else ((qw.filter (fun w => tw.contains w)).length : ℚ) / (qw.length : ℚ)

/-- Length preference score of a candidate, min(1, word_count / 100). -/
def lengthScore (cleaned : List Char) : ℚ := min 1 ((wordCount cleaned : ℚ) / 100)

/-- Minimum of a list of rationals computed by a left fold, as numpy min
over a nonempty array; zero for the empty list, which the source guards
against. -/
def listMin : List ℚ → ℚ
  | [] => 0
  | x :: xs => xs.foldl min x

/-- Maximum of a list of rationals computed by a left fold. -/
def listMax : List ℚ → ℚ
  | [] => 0
  | x :: xs => xs.foldl max x

/-- Min max normalization of the reranker: if the scores have positive
variance, map each score s to (s - min) / (max - min); otherwise replace
every score by one half.  On the empty list both branches give the empty
list, matching the numpy code. -/
def minmaxNorm (xs : List ℚ) : List ℚ :=
  if listMin xs < listMax xs then
    xs.map (fun s => (s - listMin xs) / (listMax xs - listMin xs))
  else xs.map (fun _ => (1 : ℚ) / 2)

/-- Elementwise combination of four score lists, truncating to the
shortest, as numpy elementwise arithmetic on equal length arrays. -/
def zipWith4 (f : ℚ → ℚ → ℚ → ℚ → ℚ) :
    List ℚ → List ℚ → List ℚ → List ℚ → List ℚ
  | a :: as, b :: bs, c :: cs, d :: ds => f a b c d :: zipWith4 f as bs cs ds
  | _, _, _, _ => []

/-- The fused score list of HybridReranker.rerank: alpha times the
normalized vector scores plus 0.3 times the normalized BM25 scores plus
0.05 times the title scores plus 0.05 times the length scores. -/
def combinedScores (alpha : ℚ) (vecScores bm25Raw titleS lenS : List ℚ) : List ℚ :=
  zipWith4
    (fun v b t l => alpha * v + (3 / 10) * b + (1 / 20) * t + (1 / 20) * l)
    (minmaxNorm vecScores) (minmaxNorm bm25Raw) titleS lenS

/-- Comparison used to model numpy argsort as a stable ascending sort of
positions: by value, with ties broken by original position. -/
def argsortRel (xs : List ℚ) (i j : Nat) : Bool :=
  decide (xs.getD i 0 < xs.getD j 0) ||
    (decide (xs.getD i 0 = xs.getD j 0) && decide (i ≤ j))

/-- Stable ascending argsort of a score list. -/
def argsortAsc (xs : List ℚ) : List Nat :=
  List.insertionSort (fun i j => argsortRel xs i j = true) (List.range xs.length)

/-- The candidate order produced by rerank: ascending argsort of the
combined scores, reversed, as the source reverses np.argsort. -/
def rerankOrder (combined : List ℚ) : List Nat := (argsortAsc combined).reverse

/-- A retrieval candidate as produced by search_embeddings: the fields of
the result dictionaries, with score the vector similarity. -/
structure Cand where
  chunk_text : List Char
  cleaned_text : List Char
  document_title : List Char
  document_url : List Char
  chunk_index : Nat
  score : ℚ
deriving DecidableEq, Inhabited

/-- A reranked result: the candidate fields with score overwritten by the
combined score and the component scores carried alongside. -/
structure Ranked where
  chunk_text : List Char
  cleaned_text : List Char
  document_title : List Char
  document_url : List Char
  chunk_index : Nat
  score : ℚ
  vector_score : ℚ
  bm25_score : ℚ
  title_score : ℚ
deriving DecidableEq, Inhabited

/-- Shallow embedding of HybridReranker.rerank.  The BM25 raw scores
(produced by the external rank_bm25 library from the tokenized corpus and
query) are an input; stop is the external stop word predicate. -/
def rerank (stop : List Char → Bool) (bm25Raw : List ℚ) (query : List Char)
    (corpus : List Cand) (vectorScores : List ℚ) (alpha : ℚ) : List Ranked :=
  let bm25N := minmaxNorm bm25Raw
  let titleS := corpus.map (fun d => titleMatch stop query d.document_title)
  let lenS := corpus.map (fun d => lengthScore d.cleaned_text)
  let combined := combinedScores alpha vectorScores bm25Raw titleS lenS
  (rerankOrder combined).map (fun i =>
    let c := corpus.getD i default
    { chunk_text := c.chunk_text
      cleaned_text := c.cleaned_text
      document_title := c.document_title
      document_url := c.document_url
      chunk_index := c.chunk_index
      score := combined.getD i 0
      vector_score := vectorScores.getD i 0
      bm25_score := bm25N.getD i 0
      title_score := titleS.getD i 0 })

/-- Last index of a character in a list, minus one when absent, as the
Python rfind used by truncate_answer. -/
def rfindIdx : List Char → Char → Int
  | [], _ => -1
  | a :: rest, c =>
    if 0 ≤ rfindIdx rest c then rfindIdx rest c + 1
    else if a = c then 0 else -1

/-- The sentence_end value computed by truncate_answer: the maximum of the
rfind results for the three sentence terminators. -/
def lastTermEnd (cs : List Char) : Int :=
  max (rfindIdx cs '.') (max (rfindIdx cs '!') (rfindIdx cs '?'))

/-- Shallow embedding of truncate_answer from qa_app/views.py. -/
def truncateAnswer (text : List Char) (maxLength : Nat) : List Char :=
  if text.length ≤ maxLength then text
  else
    let truncated := text.take maxLength
    if 0 < lastTermEnd truncated then
      truncated.take ((lastTermEnd truncated).toNat + 1) ++ ['.', '.']
    else truncated ++ ['.', '.', '.']

/-- A context entry of the API response. -/
structure Ctx where
  text : List Char
  score : ℚ
  source_title : List Char
  source_url : List Char
  source_chunk_index : Nat
deriving DecidableEq, Inhabited

/-- Shallow embedding of the answer synthesis section of ask_api in
qa_app/views.py (lines 66 to 100): given the ranked results, filter by the
confidence threshold 0.3; if any survive, join the original texts of the
top three, truncate to 500 characters, and build one context entry per
ranked result; otherwise both the answer and the context list stay at
their initial values, None and the empty list. -/
def synthesizeAnswer (results : List Ranked) : Option (List Char) × List Ctx :=
  if results.isEmpty then (none, [])
  else
    let top := results.filter (fun r => (3 : ℚ) / 10 ≤ r.score)
    if top.isEmpty then (none, [])
    else
      (some (truncateAnswer (joinSpaces ((top.take 3).map (fun r => r.chunk_text))) 500),
        results.map (fun r =>
          { text := r.chunk_text
            score := r.score
            source_title := r.document_title
            source_url := r.document_url
            source_chunk_index := r.chunk_index }))

/-- Metadata stored with each embedding record in the vector store. -/
structure ChromaMeta where
  document_id : Nat
  chunk_index : Nat
  document_title : List Char
  document_url : List Char
  original_text : List Char
deriving DecidableEq, Inhabited

/-- The response of a chroma query for a single query embedding: parallel
lists of ids, documents, metadatas and distances. -/
structure QueryResp where
  ids : List (List Char)
  documents : List (List Char)
  metadatas : List ChromaMeta
  distances : List ℚ
deriving DecidableEq, Inhabited

/-- Shallow embedding of clean_chunk_text from qa_app/embeddings.py:
collapse whitespace and strip, then remove page number and N of M
patterns. -/
def cleanChunkText (cs : List Char) : List Char :=
  if cs.isEmpty then []
  else removeNofM (removePage (stripWs (collapseRuns isPyWs ' ' cs)))

/-- The result formatting loop of search_embeddings: one candidate per
returned id, reading original text and source fields from the metadata
and converting the cosine distance d to the similarity 1 - d (constant 1
when the store returned no distances). -/
def formatResults (r : QueryResp) : List Cand :=
  if r.ids.isEmpty then []
  else
    (List.range r.ids.length).map (fun i =>
      { chunk_text := (r.metadatas.getD i default).original_text
        cleaned_text := r.documents.getD i default
        document_title := (r.metadatas.getD i default).document_title
        document_url := (r.metadatas.getD i default).document_url
        chunk_index := (r.metadatas.getD i default).chunk_index
        score := if r.distances.isEmpty then 1 else 1 - r.distances.getD i 0 })

/-- Shallow embedding of search_embeddings from qa_app/embeddings.py.  The
chroma collection is modelled as an optional function from the cleaned
query and the requested result count to a response or an error; the
function requests k * 2 results, returns the formatted response, and
returns the empty list when the collection is unavailable or the query
raises. -/
def searchEmbeddings
    (collection : Option (List Char → Nat → Except Unit QueryResp))
    (query : List Char) (k : Nat) : List Cand :=
  match collection with
  | none => []
  | some f =>
    match f (cleanChunkText query) (k * 2) with
    | Except.error _ => []
    | Except.ok resp => formatResults resp

/-- A row of the Document table. -/
structure DocRec where
  docId : Nat
  title : List Char
  url : List Char
  processed : Bool
deriving DecidableEq, Inhabited

/-- A row of the DocumentChunk table. -/
structure ChunkRec where
  docId : Nat
  chunk_index : Nat
  chunk_text : List Char
deriving DecidableEq, Inhabited

/-- The relational store owning documents and chunks. -/
structure Db where
  docs : List DocRec
  chunks : List ChunkRec
deriving DecidableEq, Inhabited

/-- DocumentChunk.objects.create: models.py declares (document,
chunk_index) unique_together, so inserting a duplicate pair raises an
integrity error. -/
def createChunk (db : Db) (d i : Nat) (t : List Char) : Except Unit Db :=
  if db.chunks.any (fun c => c.docId == d && c.chunk_index == i) then
    Except.error ()
  else Except.ok { db with chunks := db.chunks ++ [⟨d, i, t⟩] }

/-- The chunk creation loop of process_documents over the enumerated chunk
list: chunks with fewer than ten words are skipped while their
enumeration index is consumed. -/
def createChunksAux (d : Nat) : List (Nat × List Char) → Db → Except Unit Db
  | [], db => Except.ok db
  | (i, c) :: rest, db =>
    if wordCount c < 10 then createChunksAux d rest db
    else
      match createChunk db d i c with
      | Except.error e => Except.error e
      | Except.ok db2 => createChunksAux d rest db2

/-- Set the processed flag of a document. -/
def markProcessed (db : Db) (d : Nat) : Db :=
  { db with
    docs := db.docs.map (fun x =>
      if x.docId == d then { x with processed := true } else x) }

/-- Processing of one unprocessed document by process_documents: extract
the text (the PDF lookup and extraction are the external getText), skip
the document when no text or fewer than fifty words were extracted,
otherwise create one chunk row per sufficiently long chunk and mark the
document processed. -/
def processOneDoc (getText : Nat → List Char) (db : Db) (doc : DocRec) :
    Except Unit Db :=
  let text := getText doc.docId
  if text.isEmpty then Except.ok db
  else if wordCount text < 50 then Except.ok db
  else
    match createChunksAux doc.docId (chunkText text 300 50).enum db with
    | Except.error e => Except.error e
    | Except.ok db2 => Except.ok (markProcessed db2 doc.docId)

/-- Iteration of process_documents over the snapshot of unprocessed
documents. -/
def processDocsAux (getText : Nat → List Char) :
    List DocRec → Db → Except Unit Db
  | [], db => Except.ok db
  | d :: ds, db =>
    match processOneDoc getText db d with
    | Except.error e => Except.error e
    | Except.ok db2 => processDocsAux getText ds db2

/-- Shallow embedding of process_documents from qa_app/utils.py. -/
def processDocuments (getText : Nat → List Char) (db : Db) : Except Unit Db :=
  processDocsAux getText (db.docs.filter (fun d => !d.processed)) db

/-- One step of load_sources: get_or_create by title; an existing document
has its url updated and its processed flag reset to false, a missing one
is created unprocessed. -/
def loadSourcesAux : List (List Char × List Char) → Db → Db
  | [], db => db
  | (t, u) :: rest, db =>
    if db.docs.any (fun d => d.title == t) then
      loadSourcesAux rest
        { db with
          docs := db.docs.map (fun d =>
            if d.title == t then { d with url := u, processed := false } else d) }
    else
      loadSourcesAux rest
        { db with docs := db.docs ++ [⟨db.docs.length, t, u, false⟩] }

/-- Shallow embedding of load_sources from qa_app/utils.py. -/
def loadSources (sources : List (List Char × List Char)) (db : Db) : Db :=
  loadSourcesAux sources db

/-- The chunk indices stored for a chunk list by the creation loop of
process_documents: enumeration indices of the chunks with at least ten
words. -/
def storedIndices (cks : List (List Char)) : List Nat :=
  (cks.enum.filter (fun p => !(wordCount p.2 < 10))).map Prod.fst

/-- Decidable equality for Except results over decidable components. -/
instance {ε α : Type} [DecidableEq ε] [DecidableEq α] : DecidableEq (Except ε α) :=
  fun a b =>
    match a, b with
    | Except.ok x, Except.ok y =>
      match decEq x y with
      | isTrue h => isTrue (by rw [h])
      | isFalse h => isFalse (by intro hh; cases hh; exact h rfl)
    | Except.error x, Except.error y =>
      match decEq x y with
      | isTrue h => isTrue (by rw [h])
      | isFalse h => isFalse (by intro hh; cases hh; exact h rfl)
    | Except.ok _, Except.error _ => isFalse (by intro h; cases h)
    | Except.error _, Except.ok _ => isFalse (by intro h; cases h)

/-- A sentence of fifteen one letter words ending in a period. -/
def sentenceA : List Char := joinSpaces (List.replicate 15 ['a']) ++ ['.']

/-- A ten word chunk used in the chunk index scenarios. -/
def tenWords : List Char := joinSpaces (List.replicate 10 ['a'])

/-- A stop word predicate accepting nothing, a possible instantiation of
the external stop word set. -/
def stop0 : List Char → Bool := fun _ => false

/-- Two retrieval candidates that differ only in their chunk index, used
to exhibit the tie behaviour of the reranker. -/
def cand0 : Cand := ⟨['x'], ['x'], ['t'], ['u'], 0, 1 / 2⟩

/-- Second candidate of the tie scenario. -/
def cand1 : Cand := ⟨['x'], ['x'], ['t'], ['u'], 1, 1 / 2⟩

/-- A ranked result whose combined score 0.2 is below the 0.3 confidence
threshold. -/
def rLow : Ranked := ⟨['c'], ['c'], ['t'], ['u'], 0, 1 / 5, 1 / 5, 0, 0⟩

/-- A ranked result whose combined score 0.1 is below the 0.3 confidence
threshold, used by the witness. -/
def rLow2 : Ranked := ⟨['e'], ['e'], ['t'], ['u'], 1, 1 / 10, 1 / 10, 0, 0⟩

/-- A metadata record for the vector store scenarios. -/
def meta0 : ChromaMeta := ⟨0, 0, ['t'], ['u'], ['o']⟩

/-- A store response with two hits, returned for a request of two
results. -/
def resp2 : QueryResp := ⟨[['i'], ['j']], [['d'], ['e']], [meta0, meta0], [0, 1 / 10]⟩

/-- A store response with one hit. -/
def resp1 : QueryResp := ⟨[['i']], [['d']], [meta0], [0]⟩

/-- The input exhibiting that cleanText is not idempotent: removing the
URL exposes a page number pattern that only a second pass deletes. -/
def cx5 : List Char := ['P', 'a', 'g', 'e', ' ', 'h', 't', 't', 'p', ':', '/', '/', 'x', ' ', '5']

/-- A five character text with a sentence terminator at index 2, used by
the truncation witness. -/
def txt8 : List Char := ['a', 'b', '.', 'c', 'd']

/-- Two adjacent characters do not both lie in the class p. -/
def noPairP (p : Char → Bool) (a b : Char) : Prop := ¬(p a = true ∧ p b = true)

/-- A list is collapsed for the class p with representative r when no two
adjacent characters both lie in p and every p character equals r: the
shape of the output of collapseRuns. -/
def CollapsedP (p : Char → Bool) (r : Char) (l : List Char) : Prop :=
  List.Chain' (noPairP p) l ∧ ∀ c ∈ l, p c = true → c = r

/-- A digit free, at sign free, h free input for the idempotence
witness. -/
def wx5 : List Char := ['a', ' ', ' ', 'b']

/-- A store behaviour returning the one hit response for every request. -/
def store1 : List Char → Nat → Except Unit QueryResp := fun _ _ => Except.ok resp1

/-- A store behaviour returning the two hit response for every request. -/
def store2 : List Char → Nat → Except Unit QueryResp := fun _ _ => Except.ok resp2

/-- Twenty five such sentences joined by single spaces: the 375 word input
of the chunking scenario. -/
def text25 : List Char := joinSpaces (List.replicate 25 sentenceA)

/-- Four such sentences: a 60 word document text for the reprocessing
scenario. -/
def docText : List Char := joinSpaces (List.replicate 4 sentenceA)

/-! Helper lemmas. -/

/-- The chunk creation loop appends to the chunk table a sequence whose
indices form a sublist of the enumeration indices it was given. -/
theorem createChunksAux_chunks (d : Nat) :
    ∀ (ps : List (Nat × List Char)) (db db2 : Db),
      createChunksAux d ps db = Except.ok db2 →
      ∃ t, db2.chunks.map (fun c => c.chunk_index) =
          db.chunks.map (fun c => c.chunk_index) ++ t ∧
            List.Sublist t (ps.map Prod.fst)
  | [], db, db2, h => by
    refine ⟨[], ?_, List.nil_sublist _⟩
    simp only [createChunksAux] at h
    cases h
    simp
  | (i, c) :: rest, db, db2, h => by
    simp only [createChunksAux] at h
    by_cases hw : wordCount c < 10
    · rw [if_pos hw] at h
      obtain ⟨t, ht, hs⟩ := createChunksAux_chunks d rest db db2 h
      exact ⟨t, ht, hs.cons i⟩
    · rw [if_neg hw] at h
      unfold createChunk at h
      by_cases hdup : db.chunks.any (fun x => x.docId == d && x.chunk_index == i)
      · rw [if_pos hdup] at h
        cases h
      · rw [if_neg hdup] at h
        obtain ⟨t, ht, hs⟩ :=
          createChunksAux_chunks d rest { db with chunks := db.chunks ++ [⟨d, i, c⟩] } db2 h
        refine ⟨i :: t, ?_, hs.cons₂ i⟩
        simpa using ht

/-- rfindIdx is below the length of the list. -/
theorem rfindIdx_lt_length (cs : List Char) (c : Char) :
    rfindIdx cs c < (cs.length : Int) := by
  induction cs with
  | nil => simp [rfindIdx]
  | cons a rest ih =>
    simp only [rfindIdx, List.length_cons]
    by_cases h : (0 : Int) ≤ rfindIdx rest c
    · rw [if_pos h]
      push_cast
      omega
    · rw [if_neg h]
      by_cases ha : a = c
      · rw [if_pos ha]
        push_cast
        omega
      · rw [if_neg ha]
        push_cast
        omega

/-- When rfindIdx is nonnegative it points at an occurrence of the
character. -/
theorem rfindIdx_getD (cs : List Char) (c : Char) (h : 0 ≤ rfindIdx cs c) :
    cs.getD (rfindIdx cs c).toNat ' ' = c := by
  induction cs with
  | nil => simp [rfindIdx] at h
  | cons a rest ih =>
    simp only [rfindIdx] at h ⊢
    by_cases hr : (0 : Int) ≤ rfindIdx rest c
    · rw [if_pos hr] at h ⊢
      have ht : (rfindIdx rest c + 1).toNat = (rfindIdx rest c).toNat + 1 := by omega
      rw [ht, List.getD_cons_succ]
      exact ih hr
    · rw [if_neg hr] at h ⊢
      by_cases ha : a = c
      · rw [if_pos ha] at h ⊢
        simpa [List.getD_cons_zero] using ha
      · rw [if_neg ha] at h
        omega

/-- No occurrence of the character lies strictly beyond rfindIdx. -/
theorem rfindIdx_maximal (cs : List Char) (c : Char) :
    ∀ j : Nat, rfindIdx cs c < (j : Int) → j < cs.length → ¬ cs.getD j ' ' = c := by
  induction cs with
  | nil =>
    intro j _ hj
    simp at hj
  | cons a rest ih =>
    intro j h1 h2
    simp only [rfindIdx] at h1
    by_cases hr : (0 : Int) ≤ rfindIdx rest c
    · rw [if_pos hr] at h1
      obtain ⟨j2, rfl⟩ : ∃ j2, j = j2 + 1 := ⟨j - 1, by omega⟩
      rw [List.getD_cons_succ]
      refine ih j2 ?_ (by simpa using h2)
      push_cast at h1 ⊢
      omega
    · rw [if_neg hr] at h1
      by_cases ha : a = c
      · rw [if_pos ha] at h1
        obtain ⟨j2, rfl⟩ : ∃ j2, j = j2 + 1 := ⟨j - 1, by omega⟩
        rw [List.getD_cons_succ]
        refine ih j2 ?_ (by simpa using h2)
        omega
      · rw [if_neg ha] at h1
        cases j with
        | zero => simpa [List.getD_cons_zero] using ha
        | succ j2 =>
          rw [List.getD_cons_succ]
          refine ih j2 ?_ (by simpa using h2)
          omega

/-- When the sentence_end of truncate_answer is nonnegative it points at a
terminator inside the list. -/
theorem lastTermEnd_getD (cs : List Char) (h : 0 ≤ lastTermEnd cs) :
    isTermin (cs.getD (lastTermEnd cs).toNat ' ') = true ∧
      (lastTermEnd cs).toNat < cs.length := by
  have hlt : lastTermEnd cs < (cs.length : Int) := by
    have h1 := rfindIdx_lt_length cs '.'
    have h2 := rfindIdx_lt_length cs '!'
    have h3 := rfindIdx_lt_length cs '?'
    simp only [lastTermEnd]
    omega
  have hlen : (lastTermEnd cs).toNat < cs.length := by omega
  refine ⟨?_, hlen⟩
  rcases max_choice (rfindIdx cs '.') (max (rfindIdx cs '!') (rfindIdx cs '?')) with h1 | h1
  · have he : lastTermEnd cs = rfindIdx cs '.' := h1
    rw [he, rfindIdx_getD cs '.' (he ▸ h)]
    rfl
  · rcases max_choice (rfindIdx cs '!') (rfindIdx cs '?') with h2 | h2
    · have he : lastTermEnd cs = rfindIdx cs '!' := by
        show max _ _ = _
        rw [h1, h2]
      rw [he, rfindIdx_getD cs '!' (he ▸ h)]
      rfl
    · have he : lastTermEnd cs = rfindIdx cs '?' := by
        show max _ _ = _
        rw [h1, h2]
      rw [he, rfindIdx_getD cs '?' (he ▸ h)]
      rfl

/-- No terminator lies strictly beyond the sentence_end of
truncate_answer. -/
theorem lastTermEnd_maximal (cs : List Char) (j : Nat)
    (h1 : lastTermEnd cs < (j : Int)) (h2 : j < cs.length) :
    isTermin (cs.getD j ' ') = false := by
  have hd := rfindIdx_maximal cs '.' j (by simp only [lastTermEnd] at h1; omega) h2
  have he := rfindIdx_maximal cs '!' j (by simp only [lastTermEnd] at h1; omega) h2
  have hq := rfindIdx_maximal cs '?' j (by simp only [lastTermEnd] at h1; omega) h2
  simp only [isTermin, Bool.or_eq_false_iff, decide_eq_false_iff_not]
  exact ⟨⟨hd, he⟩, hq⟩

/-- Every terminator position is a lower bound for the sentence_end of
truncate_answer. -/
theorem le_lastTermEnd_of_term (cs : List Char) (j : Nat) (hj : j < cs.length)
    (ht : isTermin (cs.getD j ' ') = true) : (j : Int) ≤ lastTermEnd cs := by
  by_contra hc
  push_neg at hc
  rw [lastTermEnd_maximal cs j hc hj] at ht
  cases ht

/-- A left fold with min is below its initial value. -/
theorem foldl_min_le_init (l : List ℚ) (a : ℚ) : l.foldl min a ≤ a := by
  induction l generalizing a with
  | nil => exact le_refl a
  | cons x t ih => exact le_trans (ih (min a x)) (min_le_left a x)

/-- A left fold with min is below every member. -/
theorem foldl_min_le_mem (l : List ℚ) (a b : ℚ) (hb : b ∈ l) : l.foldl min a ≤ b := by
  induction l generalizing a with
  | nil => cases hb
  | cons x t ih =>
    rcases List.mem_cons.mp hb with rfl | hb2
    · exact le_trans (foldl_min_le_init t (min a b)) (min_le_right a b)
    · exact ih (min a x) hb2

/-- A left fold with min returns its initial value or a member. -/
theorem foldl_min_mem (l : List ℚ) (a : ℚ) : l.foldl min a = a ∨ l.foldl min a ∈ l := by
  induction l generalizing a with
  | nil => exact Or.inl rfl
  | cons x t ih =>
    rcases ih (min a x) with h | h
    · rcases min_choice a x with hm | hm
      · exact Or.inl (by rw [List.foldl_cons, h, hm])
      · exact Or.inr (by rw [List.foldl_cons, h, hm]; exact List.mem_cons_self x t)
    · exact Or.inr (List.mem_cons_of_mem x h)

/-- A left fold with max is above its initial value. -/
theorem le_foldl_max_init (l : List ℚ) (a : ℚ) : a ≤ l.foldl max a := by
  induction l generalizing a with
  | nil => exact le_refl a
  | cons x t ih => exact le_trans (le_max_left a x) (ih (max a x))

/-- A left fold with max is above every member. -/
theorem le_foldl_max_mem (l : List ℚ) (a b : ℚ) (hb : b ∈ l) : b ≤ l.foldl max a := by
  induction l generalizing a with
  | nil => cases hb
  | cons x t ih =>
    rcases List.mem_cons.mp hb with rfl | hb2
    · exact le_trans (le_max_right a b) (le_foldl_max_init t (max a b))
    · exact ih (max a x) hb2

/-- A left fold with max returns its initial value or a member. -/
theorem foldl_max_mem (l : List ℚ) (a : ℚ) : l.foldl max a = a ∨ l.foldl max a ∈ l := by
  induction l generalizing a with
  | nil => exact Or.inl rfl
  | cons x t ih =>
    rcases ih (max a x) with h | h
    · rcases max_choice a x with hm | hm
      · exact Or.inl (by rw [List.foldl_cons, h, hm])
      · exact Or.inr (by rw [List.foldl_cons, h, hm]; exact List.mem_cons_self x t)
    · exact Or.inr (List.mem_cons_of_mem x h)

/-- listMin is below every member. -/
theorem listMin_le (xs : List ℚ) (b : ℚ) (hb : b ∈ xs) : listMin xs ≤ b := by
  match xs with
  | [] => cases hb
  | x :: t =>
    rcases List.mem_cons.mp hb with rfl | hb2
    · exact foldl_min_le_init t b
    · exact foldl_min_le_mem t x b hb2

/-- listMin of a nonempty list is a member. -/
theorem listMin_mem (xs : List ℚ) (h : xs ≠ []) : listMin xs ∈ xs := by
  match xs with
  | [] => exact absurd rfl h
  | x :: t =>
    rcases foldl_min_mem t x with h2 | h2
    · rw [listMin, h2]
      exact List.mem_cons_self x t
    · exact List.mem_cons_of_mem x h2

/-- Every member is below listMax. -/
theorem le_listMax (xs : List ℚ) (b : ℚ) (hb : b ∈ xs) : b ≤ listMax xs := by
  match xs with
  | [] => cases hb
  | x :: t =>
    rcases List.mem_cons.mp hb with rfl | hb2
    · exact le_foldl_max_init t b
    · exact le_foldl_max_mem t x b hb2

/-- listMax of a nonempty list is a member. -/
theorem listMax_mem (xs : List ℚ) (h : xs ≠ []) : listMax xs ∈ xs := by
  match xs with
  | [] => exact absurd rfl h
  | x :: t =>
    rcases foldl_max_mem t x with h2 | h2
    · rw [listMax, h2]
      exact List.mem_cons_self x t
    · exact List.mem_cons_of_mem x h2

/-- getD of a mapped rational list at an in range index. -/
theorem getD_map_rat (f : ℚ → ℚ) (xs : List ℚ) (i : Nat) (hi : i < xs.length) :
    (xs.map f).getD i 0 = f (xs.getD i 0) := by
  induction xs generalizing i with
  | nil => cases hi
  | cons x t ih =>
    cases i with
    | zero => rfl
    | succ i2 =>
      simp only [List.map_cons, List.getD_cons_succ]
      exact ih i2 (by simpa using hi)

/-- getD of a rational list at an in range index is a member. -/
theorem getD_mem_rat (xs : List ℚ) (i : Nat) (hi : i < xs.length) :
    xs.getD i 0 ∈ xs := by
  induction xs generalizing i with
  | nil => cases hi
  | cons x t ih =>
    cases i with
    | zero => exact List.mem_cons_self x t
    | succ i2 =>
      rw [List.getD_cons_succ]
      exact List.mem_cons_of_mem x (ih i2 (by simpa using hi))

/-- The value of the min max normalization at an in range index. -/
theorem minmaxNorm_getD (xs : List ℚ) (i : Nat) (hi : i < xs.length) :
    (minmaxNorm xs).getD i 0 =
      if listMin xs < listMax xs then
        (xs.getD i 0 - listMin xs) / (listMax xs - listMin xs)
      else 1 / 2 := by
  by_cases hv : listMin xs < listMax xs
  · rw [if_pos hv, minmaxNorm, if_pos hv, getD_map_rat _ _ i hi]
  · rw [if_neg hv, minmaxNorm, if_neg hv, getD_map_rat _ _ i hi]

/-- getD of a function mapped over an index range at an in range index. -/
theorem getD_map_range {α : Type} [Inhabited α] (g : Nat → α) (n i : Nat)
    (hi : i < n) : ((List.range n).map g).getD i default = g i := by
  rw [List.getD_eq_getElem?_getD, List.getElem?_map, List.getElem?_range hi]
  rfl

/-- The length of the min max normalization. -/
theorem minmaxNorm_length (xs : List ℚ) : (minmaxNorm xs).length = xs.length := by
  rw [minmaxNorm]
  by_cases hv : listMin xs < listMax xs
  · rw [if_pos hv, List.length_map]
  · rw [if_neg hv, List.length_map]

/-- The argsort comparison unfolded to a lexicographic disjunction. -/
theorem argsortRel_iff (xs : List ℚ) (i j : Nat) :
    argsortRel xs i j = true ↔
      xs.getD i 0 < xs.getD j 0 ∨ (xs.getD i 0 = xs.getD j 0 ∧ i ≤ j) := by
  simp [argsortRel]

/-- The argsort comparison is total. -/
theorem argsortRel_total (xs : List ℚ) (i j : Nat) :
    argsortRel xs i j = true ∨ argsortRel xs j i = true := by
  rw [argsortRel_iff, argsortRel_iff]
  rcases lt_trichotomy (xs.getD i 0) (xs.getD j 0) with h | h | h
  · exact Or.inl (Or.inl h)
  · rcases Nat.le_total i j with hij | hij
    · exact Or.inl (Or.inr ⟨h, hij⟩)
    · exact Or.inr (Or.inr ⟨h.symm, hij⟩)
  · exact Or.inr (Or.inl h)

/-- The argsort comparison is transitive. -/
theorem argsortRel_trans (xs : List ℚ) (i j k : Nat)
    (h1 : argsortRel xs i j = true) (h2 : argsortRel xs j k = true) :
    argsortRel xs i k = true := by
  rw [argsortRel_iff] at h1 h2 ⊢
  rcases h1 with h1 | ⟨h1e, h1l⟩
  · rcases h2 with h2 | ⟨h2e, _⟩
    · exact Or.inl (lt_trans h1 h2)
    · exact Or.inl (h2e ▸ h1)
  · rcases h2 with h2 | ⟨h2e, h2l⟩
    · exact Or.inl (h1e ▸ h2)
    · exact Or.inr ⟨h1e.trans h2e, le_trans h1l h2l⟩

/-- The ascending argsort is sorted for its comparison. -/
theorem argsortAsc_sorted (xs : List ℚ) :
    List.Sorted (fun i j => argsortRel xs i j = true) (argsortAsc xs) := by
  haveI : IsTotal Nat (fun i j => argsortRel xs i j = true) := ⟨argsortRel_total xs⟩
  haveI : IsTrans Nat (fun i j => argsortRel xs i j = true) :=
    ⟨fun i j k => argsortRel_trans xs i j k⟩
  exact List.sorted_insertionSort _ _

/-- The candidate order of rerank is pairwise descending on scores, with
ties broken towards the larger original position. -/
theorem rerankOrder_pairwise (c : List ℚ) :
    List.Pairwise (fun i j => c.getD j 0 < c.getD i 0 ∨
      (c.getD i 0 = c.getD j 0 ∧ j ≤ i)) (rerankOrder c) := by
  rw [rerankOrder, List.pairwise_reverse]
  refine (argsortAsc_sorted c).imp ?_
  intro a b hab
  rcases (argsortRel_iff c a b).mp hab with h | ⟨he, hl⟩
  · exact Or.inl h
  · exact Or.inr ⟨he.symm, hl⟩

/-- The candidate order of rerank is a permutation of all candidate
positions. -/
theorem rerankOrder_perm (c : List ℚ) :
    (rerankOrder c).Perm (List.range c.length) := by
  rw [rerankOrder]
  exact (List.reverse_perm _).trans (List.perm_insertionSort _ _)

/-- Min max normalization sends a two element constant list to the
constant one half list. -/
theorem minmaxNorm_pair_eq (a : ℚ) : minmaxNorm [a, a] = [1 / 2, 1 / 2] := by
  have h1 : listMin [a, a] = a := by
    simp [listMin, List.foldl]
  have h2 : listMax [a, a] = a := by
    simp [listMax, List.foldl]
  rw [minmaxNorm, if_neg (by rw [h1, h2]; exact lt_irrefl a)]
  rfl

/-- The combined scores of a two candidate tie. -/
theorem combinedScores_pair (alpha v b t l : ℚ) :
    combinedScores alpha [v, v] [b, b] [t, t] [l, l] =
      [alpha * (1 / 2) + (3 / 10) * (1 / 2) + (1 / 20) * t + (1 / 20) * l,
        alpha * (1 / 2) + (3 / 10) * (1 / 2) + (1 / 20) * t + (1 / 20) * l] := by
  rw [combinedScores, minmaxNorm_pair_eq v, minmaxNorm_pair_eq b]
  rfl

/-- On a two element tie the ascending argsort keeps the original
order. -/
theorem argsortAsc_pair (a : ℚ) : argsortAsc [a, a] = [0, 1] := by
  have hr : argsortRel [a, a] 0 1 = true := by
    rw [argsortRel_iff]
    exact Or.inr ⟨rfl, by omega⟩
  show List.insertionSort _ (List.range 2) = [0, 1]
  rw [show List.range 2 = [0, 1] from rfl]
  simp [List.insertionSort, List.orderedInsert, hr]

/-- A fold of min distributes over a min initial value. -/
theorem foldl_min_assoc (t : List ℚ) : ∀ a b : ℚ,
    t.foldl min (min a b) = min a (t.foldl min b) := by
  induction t with
  | nil => intro a b; rfl
  | cons x t2 ih =>
    intro a b
    rw [List.foldl_cons, min_assoc, ih a (min b x), List.foldl_cons]

/-- listMin of a cons with a nonempty tail. -/
theorem listMin_cons (x : ℚ) (o : List ℚ) (ho : o ≠ []) :
    listMin (x :: o) = min x (listMin o) := by
  match o with
  | [] => exact absurd rfl ho
  | y :: t =>
    show (y :: t).foldl min x = min x (t.foldl min y)
    rw [List.foldl_cons, foldl_min_assoc]

/-- A fold of max distributes over a max initial value. -/
theorem foldl_max_assoc (t : List ℚ) : ∀ a b : ℚ,
    t.foldl max (max a b) = max a (t.foldl max b) := by
  induction t with
  | nil => intro a b; rfl
  | cons x t2 ih =>
    intro a b
    rw [List.foldl_cons, max_assoc, ih a (max b x), List.foldl_cons]

/-- listMax of a cons with a nonempty tail. -/
theorem listMax_cons (x : ℚ) (o : List ℚ) (ho : o ≠ []) :
    listMax (x :: o) = max x (listMax o) := by
  match o with
  | [] => exact absurd rfl ho
  | y :: t =>
    show (y :: t).foldl max x = max x (t.foldl max y)
    rw [List.foldl_cons, foldl_max_assoc]

/-- listMin is invariant under permutation. -/
theorem listMin_perm (l1 l2 : List ℚ) (h : l1.Perm l2) : listMin l1 = listMin l2 := by
  rcases l1 with _ | ⟨x, t⟩
  · rw [h.symm.eq_nil]
  · have hne1 : (x :: t) ≠ ([] : List ℚ) := by intro hc; cases hc
    have hne2 : l2 ≠ [] := by
      intro hc
      subst hc
      exact hne1 h.eq_nil
    exact le_antisymm
      (listMin_le _ _ (h.mem_iff.mpr (listMin_mem l2 hne2)))
      (listMin_le _ _ (h.mem_iff.mp (listMin_mem _ hne1)))

/-- listMax is invariant under permutation. -/
theorem listMax_perm (l1 l2 : List ℚ) (h : l1.Perm l2) : listMax l1 = listMax l2 := by
  rcases l1 with _ | ⟨x, t⟩
  · rw [h.symm.eq_nil]
  · have hne1 : (x :: t) ≠ ([] : List ℚ) := by intro hc; cases hc
    have hne2 : l2 ≠ [] := by
      intro hc
      subst hc
      exact hne1 h.eq_nil
    exact le_antisymm
      (le_listMax _ _ (h.mem_iff.mp (listMax_mem _ hne1)))
      (le_listMax _ _ (h.mem_iff.mpr (listMax_mem l2 hne2)))

/-- listMin of a list with a distinguished middle element. -/
theorem listMin_middle (pre suf : List ℚ) (v : ℚ) (ho : pre ++ suf ≠ []) :
    listMin (pre ++ v :: suf) = min v (listMin (pre ++ suf)) := by
  rw [listMin_perm _ _ List.perm_middle, listMin_cons v _ ho]

/-- listMax of a list with a distinguished middle element. -/
theorem listMax_middle (pre suf : List ℚ) (v : ℚ) (ho : pre ++ suf ≠ []) :
    listMax (pre ++ v :: suf) = max v (listMax (pre ++ suf)) := by
  rw [listMax_perm _ _ List.perm_middle, listMax_cons v _ ho]

/-- getD of a list at the position of a distinguished middle element. -/
theorem getD_append_length (pre suf : List ℚ) (v : ℚ) :
    (pre ++ v :: suf).getD pre.length 0 = v := by
  induction pre with
  | nil => rfl
  | cons x t ih => simpa [List.getD_cons_succ] using ih

/-- Increasing the score at one position does not decrease its min max
normalized value, all other scores fixed. -/
theorem minmaxNorm_update_mono (pre suf : List ℚ) (v w : ℚ) (hvw : v ≤ w) :
    (minmaxNorm (pre ++ v :: suf)).getD pre.length 0 ≤
      (minmaxNorm (pre ++ w :: suf)).getD pre.length 0 := by
  have hl1 : pre.length < (pre ++ v :: suf).length := by
    rw [List.length_append, List.length_cons]
    omega
  have hl2 : pre.length < (pre ++ w :: suf).length := by
    rw [List.length_append, List.length_cons]
    omega
  rw [minmaxNorm_getD _ _ hl1, minmaxNorm_getD _ _ hl2,
    getD_append_length, getD_append_length]
  by_cases ho : pre ++ suf = []
  · have hpre : pre = [] := by
      rcases List.append_eq_nil.mp ho with ⟨h1, _⟩
      exact h1
    have hsuf : suf = [] := by
      rcases List.append_eq_nil.mp ho with ⟨_, h2⟩
      exact h2
    subst hpre
    subst hsuf
    have e1 : listMin [v] = v := rfl
    have e2 : listMax [v] = v := rfl
    have e3 : listMin [w] = w := rfl
    have e4 : listMax [w] = w := rfl
    simp only [List.nil_append] at *
    rw [e1, e2, e3, e4, if_neg (lt_irrefl v), if_neg (lt_irrefl w)]
  · rw [listMin_middle pre suf v ho, listMax_middle pre suf v ho,
      listMin_middle pre suf w ho, listMax_middle pre suf w ho]
    set m := listMin (pre ++ suf) with hm
    set M := listMax (pre ++ suf) with hM
    have hmM : m ≤ M := le_listMax _ _ (listMin_mem _ ho)
    by_cases h1 : min v m < max v M
    · by_cases h2 : min w m < max w M
      · rw [if_pos h1, if_pos h2]
        by_cases hvm : v ≤ m
        · rw [min_eq_left hvm, sub_self, zero_div]
          exact div_nonneg (sub_nonneg.mpr (min_le_left w m)) (le_of_lt (sub_pos.mpr h2))
        · push_neg at hvm
          have hwm : m < w := lt_of_lt_of_le hvm hvw
          rw [min_eq_right (le_of_lt hvm), min_eq_right (le_of_lt hwm)] at *
          by_cases hwM : w ≤ M
          · have hvM : v ≤ M := le_trans hvw hwM
            rw [max_eq_right hvM, max_eq_right hwM] at *
            have hd : (0 : ℚ) < M - m := sub_pos.mpr h1
            rw [div_le_div_iff₀ hd hd]
            have := sub_le_sub_right hvw m
            nlinarith
          · push_neg at hwM
            rw [max_eq_left (le_of_lt hwM)] at *
            have hd2 : (0 : ℚ) < w - m := sub_pos.mpr hwm
            rw [div_self (ne_of_gt hd2)]
            rw [div_le_one (sub_pos.mpr h1)]
            exact sub_le_sub_right (le_max_left v M) m
      · rw [if_pos h1, if_neg h2]
        have hall : max w M ≤ min w m := not_lt.mp h2
        have hminw : min w m ≤ w := min_le_left w m
        have hminm : min w m ≤ m := min_le_right w m
        have hmaxw : w ≤ max w M := le_max_left w M
        have hmaxM : M ≤ max w M := le_max_right w M
        have hvme : v ≤ m := by linarith
        rw [min_eq_left hvme, sub_self, zero_div]
        norm_num
    · rw [if_neg h1]
      by_cases h2 : min w m < max w M
      · rw [if_pos h2]
        have hall : max v M ≤ min v m := not_lt.mp h1
        have hminv : min v m ≤ v := min_le_left v m
        have hminm : min v m ≤ m := min_le_right v m
        have hmaxv : v ≤ max v M := le_max_left v M
        have hmaxM : M ≤ max v M := le_max_right v M
        have hmw : m ≤ w := by linarith
        have hMw : M ≤ w := by linarith
        rw [min_eq_right hmw] at h2 ⊢
        rw [max_eq_left hMw] at h2 ⊢
        rw [div_self (ne_of_gt (sub_pos.mpr h2))]
        norm_num
      · rw [if_neg h2]

/-- getD of the four way elementwise combination. -/
theorem zipWith4_getD (f : ℚ → ℚ → ℚ → ℚ → ℚ) (as bs cs ds : List ℚ) (i : Nat) :
    (zipWith4 f as bs cs ds).getD i 0 =
      if i < as.length ∧ i < bs.length ∧ i < cs.length ∧ i < ds.length then
        f (as.getD i 0) (bs.getD i 0) (cs.getD i 0) (ds.getD i 0)
      else 0 := by
  induction as generalizing bs cs ds i with
  | nil => simp [zipWith4]
  | cons a at2 ih =>
    match bs, cs, ds with
    | [], _, _ => simp [zipWith4]
    | b :: bt, [], _ => simp [zipWith4]
    | b :: bt, c :: ct, [] => simp [zipWith4]
    | b :: bt, c :: ct, d :: dt =>
      match i with
      | 0 => simp [zipWith4]
      | i2 + 1 =>
        show (zipWith4 f at2 bt ct dt).getD i2 0 = _
        rw [ih bt ct dt i2]
        simp only [List.length_cons, List.getD_cons_succ]
        congr 1
        simp [Nat.succ_lt_succ_iff]

/-- Unfolding of the collapsing scanner on a p character in scan mode. -/
theorem collapseRunsAux_cons_pos_false (p : Char → Bool) (r d : Char)
    (rest : List Char) (hp : p d = true) :
    collapseRunsAux p r (d :: rest) false = r :: collapseRunsAux p r rest true := by
  simp [collapseRunsAux, hp]

/-- Unfolding of the collapsing scanner on a p character in run mode. -/
theorem collapseRunsAux_cons_pos_true (p : Char → Bool) (r d : Char)
    (rest : List Char) (hp : p d = true) :
    collapseRunsAux p r (d :: rest) true = collapseRunsAux p r rest true := by
  simp [collapseRunsAux, hp]

/-- Unfolding of the collapsing scanner on a character outside p. -/
theorem collapseRunsAux_cons_neg (p : Char → Bool) (r d : Char)
    (rest : List Char) (b : Bool) (hp : ¬ p d = true) :
    collapseRunsAux p r (d :: rest) b = d :: collapseRunsAux p r rest false := by
  cases b <;> simp [collapseRunsAux, hp]

/-- Every character of a collapsed run output is the replacement or an
input character. -/
theorem mem_collapseRunsAux (p : Char → Bool) (r : Char) (cs : List Char) :
    ∀ (b : Bool) (c : Char), c ∈ collapseRunsAux p r cs b → c = r ∨ c ∈ cs := by
  induction cs with
  | nil =>
    intro b c h
    cases h
  | cons d rest ih =>
    intro b c h
    by_cases hp : p d = true
    · cases b with
      | true =>
        rw [collapseRunsAux_cons_pos_true p r d rest hp] at h
        rcases ih true c h with h2 | h2
        · exact Or.inl h2
        · exact Or.inr (List.mem_cons_of_mem d h2)
      | false =>
        rw [collapseRunsAux_cons_pos_false p r d rest hp] at h
        rcases List.mem_cons.mp h with rfl | h2
        · exact Or.inl rfl
        · rcases ih true c h2 with h3 | h3
          · exact Or.inl h3
          · exact Or.inr (List.mem_cons_of_mem d h3)
    · rw [collapseRunsAux_cons_neg p r d rest b hp] at h
      rcases List.mem_cons.mp h with rfl | h2
      · exact Or.inr (List.mem_cons_self c rest)
      · rcases ih false c h2 with h3 | h3
        · exact Or.inl h3
        · exact Or.inr (List.mem_cons_of_mem d h3)

/-- In run mode, the output never starts with a p character. -/
theorem collapseRunsAux_true_head (p : Char → Bool) (r : Char) (cs : List Char) :
    ∀ c, (collapseRunsAux p r cs true).head? = some c → p c = false := by
  induction cs with
  | nil =>
    intro c h
    cases h
  | cons d rest ih =>
    intro c h
    by_cases hp : p d = true
    · rw [collapseRunsAux_cons_pos_true p r d rest hp] at h
      exact ih c h
    · rw [collapseRunsAux_cons_neg p r d rest true hp, List.head?_cons,
        Option.some_inj] at h
      subst h
      exact Bool.eq_false_iff.mpr hp

/-- The output of a collapsed run never has two adjacent p characters. -/
theorem collapseRunsAux_chain (p : Char → Bool) (r : Char) (cs : List Char) :
    ∀ b, List.Chain' (noPairP p) (collapseRunsAux p r cs b) := by
  induction cs with
  | nil =>
    intro b
    exact List.chain'_nil
  | cons d rest ih =>
    intro b
    by_cases hp : p d = true
    · cases b with
      | true =>
        rw [collapseRunsAux_cons_pos_true p r d rest hp]
        exact ih true
      | false =>
        rw [collapseRunsAux_cons_pos_false p r d rest hp]
        refine List.chain'_cons'.mpr ⟨?_, ih true⟩
        intro y hy hc
        rw [collapseRunsAux_true_head p r rest y hy] at hc
        exact absurd hc.2 (by simp)
    · rw [collapseRunsAux_cons_neg p r d rest b hp]
      refine List.chain'_cons'.mpr ⟨?_, ih false⟩
      intro y _ hc
      exact hp hc.1

/-- Every p character of a collapsed run output is the replacement. -/
theorem collapseRunsAux_all (p : Char → Bool) (r : Char) (cs : List Char) :
    ∀ b c, c ∈ collapseRunsAux p r cs b → p c = true → c = r := by
  induction cs with
  | nil =>
    intro b c h
    cases h
  | cons d rest ih =>
    intro b c h hc
    by_cases hp : p d = true
    · cases b with
      | true =>
        rw [collapseRunsAux_cons_pos_true p r d rest hp] at h
        exact ih true c h hc
      | false =>
        rw [collapseRunsAux_cons_pos_false p r d rest hp] at h
        rcases List.mem_cons.mp h with rfl | h2
        · rfl
        · exact ih true c h2 hc
    · rw [collapseRunsAux_cons_neg p r d rest b hp] at h
      rcases List.mem_cons.mp h with rfl | h2
      · exact absurd hc hp
      · exact ih false c h2 hc

/-- The output of collapseRuns is collapsed. -/
theorem collapseRuns_collapsed (p : Char → Bool) (r : Char) (cs : List Char) :
    CollapsedP p r (collapseRuns p r cs) :=
  ⟨collapseRunsAux_chain p r cs false, collapseRunsAux_all p r cs false⟩

/-- On a collapsed list the collapsing pass is the identity. -/
theorem collapseRunsAux_id (p : Char → Bool) (r : Char) (cs : List Char)
    (hch : List.Chain' (noPairP p) cs) (hall : ∀ c ∈ cs, p c = true → c = r) :
    collapseRunsAux p r cs false = cs ∧
      ((∀ c, cs.head? = some c → p c = false) →
        collapseRunsAux p r cs true = cs) := by
  induction cs with
  | nil => exact ⟨rfl, fun _ => rfl⟩
  | cons d rest ih =>
    have hch2 : List.Chain' (noPairP p) rest := hch.tail
    have hall2 : ∀ c ∈ rest, p c = true → c = r :=
      fun c hc => hall c (List.mem_cons_of_mem d hc)
    have IH := ih hch2 hall2
    constructor
    · by_cases hp : p d = true
      · have hd : d = r := hall d (List.mem_cons_self d rest) hp
        have hhead : ∀ c, rest.head? = some c → p c = false := by
          intro c hc
          have hR := (List.chain'_cons'.mp hch).1 c hc
          rw [noPairP] at hR
          cases hpc : p c with
          | false => rfl
          | true => exact absurd ⟨hp, hpc⟩ hR
        rw [collapseRunsAux_cons_pos_false p r d rest hp, IH.2 hhead, hd]
      · rw [collapseRunsAux_cons_neg p r d rest false hp, IH.1]
    · intro hhd
      have hpd : p d = false := hhd d rfl
      rw [collapseRunsAux_cons_neg p r d rest true (by rw [hpd]; simp), IH.1]

/-- On a collapsed list collapseRuns is the identity. -/
theorem collapseRuns_id_of_collapsed (p : Char → Bool) (r : Char)
    (cs : List Char) (h : CollapsedP p r cs) : collapseRuns p r cs = cs :=
  (collapseRunsAux_id p r cs h.1 h.2).1

/-- The head of a collapsing pass in scan mode on a cons is the
replacement or the first character. -/
theorem collapseRunsAux_false_head (q : Char → Bool) (r2 d : Char)
    (rest : List Char) :
    (collapseRunsAux q r2 (d :: rest) false).head? = some r2 ∨
      (collapseRunsAux q r2 (d :: rest) false).head? = some d := by
  by_cases hq : q d = true
  · rw [collapseRunsAux_cons_pos_false q r2 d rest hq]
    exact Or.inl rfl
  · rw [collapseRunsAux_cons_neg q r2 d rest false hq]
    exact Or.inr rfl

/-- Collapsing the class q preserves the adjacency part of being
collapsed for a class p that does not contain the replacement character
of q. -/
theorem collapseRunsAux_pres_chain (p q : Char → Bool) (r2 : Char)
    (hpr2 : p r2 = false) (cs : List Char) :
    ∀ b, List.Chain' (noPairP p) cs →
      List.Chain' (noPairP p) (collapseRunsAux q r2 cs b) := by
  induction cs with
  | nil =>
    intro b _
    exact List.chain'_nil
  | cons d rest ih =>
    intro b hch
    have hch2 : List.Chain' (noPairP p) rest := hch.tail
    by_cases hq : q d = true
    · cases b with
      | true =>
        rw [collapseRunsAux_cons_pos_true q r2 d rest hq]
        exact ih true hch2
      | false =>
        rw [collapseRunsAux_cons_pos_false q r2 d rest hq]
        refine List.chain'_cons'.mpr ⟨?_, ih true hch2⟩
        intro y _ hc
        rw [hpr2] at hc
        exact absurd hc.1 (by simp)
    · rw [collapseRunsAux_cons_neg q r2 d rest b hq]
      refine List.chain'_cons'.mpr ⟨?_, ih false hch2⟩
      intro y hy
      match rest, hy with
      | e :: rest2, hy =>
        rcases collapseRunsAux_false_head q r2 e rest2 with h2 | h2
        · rw [h2] at hy
          have hy2 : y = r2 := (by simpa using hy : r2 = y).symm
          subst hy2
          intro hc
          rw [hpr2] at hc
          exact absurd hc.2 (by simp)
        · rw [h2] at hy
          have hy2 : y = e := (by simpa using hy : e = y).symm
          subst hy2
          exact (List.chain'_cons'.mp hch).1 y rfl

/-- Collapsing the class q preserves the labelling part of being
collapsed for p. -/
theorem collapseRunsAux_pres_all (p q : Char → Bool) (r r2 : Char)
    (hpr2 : p r2 = false) (cs : List Char)
    (hall : ∀ c ∈ cs, p c = true → c = r) :
    ∀ b c, c ∈ collapseRunsAux q r2 cs b → p c = true → c = r := by
  intro b c hc hpc
  rcases mem_collapseRunsAux q r2 cs b c hc with rfl | h2
  · exact absurd hpc (by rw [hpr2]; simp)
  · exact hall c h2 hpc

/-- Collapsing a class that does not contain the representative of p
preserves being collapsed for p. -/
theorem collapseRuns_pres_collapsed (p q : Char → Bool) (r r2 : Char)
    (hpr2 : p r2 = false) (cs : List Char) (h : CollapsedP p r cs) :
    CollapsedP p r (collapseRuns q r2 cs) :=
  ⟨collapseRunsAux_pres_chain p q r2 hpr2 cs false h.1,
    collapseRunsAux_pres_all p q r r2 hpr2 cs h.2 false⟩

/-- Stripping only removes characters. -/
theorem mem_stripWs (l : List Char) (c : Char) (h : c ∈ stripWs l) : c ∈ l := by
  rw [stripWs, List.mem_reverse] at h
  have h2 := (List.dropWhile_suffix isPyWs).subset h
  rw [List.mem_reverse] at h2
  exact (List.dropWhile_suffix isPyWs).subset h2

/-- A chain survives dropWhile. -/
theorem chain_dropWhile (R : Char → Char → Prop) (p2 : Char → Bool)
    (l : List Char) (h : List.Chain' R l) : List.Chain' R (l.dropWhile p2) := by
  obtain ⟨t, ht⟩ := List.dropWhile_suffix p2 (l := l)
  rw [← ht] at h
  exact (List.chain'_append.mp h).2.1

/-- The adjacency condition is symmetric, so it survives reversal. -/
theorem chain_noPair_reverse (p : Char → Bool) (l : List Char)
    (h : List.Chain' (noPairP p) l) : List.Chain' (noPairP p) l.reverse := by
  rw [List.chain'_reverse]
  exact h.imp (fun a b hab hc => hab ⟨hc.2, hc.1⟩)

/-- Stripping preserves being collapsed. -/
theorem stripWs_pres_collapsed (p : Char → Bool) (r : Char) (l : List Char)
    (h : CollapsedP p r l) : CollapsedP p r (stripWs l) := by
  constructor
  · rw [stripWs]
    exact chain_noPair_reverse p _
      (chain_dropWhile _ _ _ (chain_noPair_reverse p _ (chain_dropWhile _ _ _ h.1)))
  · intro c hc
    exact h.2 c (mem_stripWs l c hc)

/-- dropWhile is the identity when the head is outside the class. -/
theorem dropWhile_eq_self_of_head (p2 : Char → Bool) (l : List Char)
    (h : ∀ c, l.head? = some c → p2 c = false) : l.dropWhile p2 = l := by
  cases l with
  | nil => rfl
  | cons c rest =>
    have hc := h c rfl
    rw [List.dropWhile_cons, if_neg (by rw [hc]; simp)]

/-- The head of dropWhile is outside the class. -/
theorem head_dropWhile_not (p2 : Char → Bool) (l : List Char) :
    ∀ c, (l.dropWhile p2).head? = some c → p2 c = false := by
  induction l with
  | nil =>
    intro c h
    cases h
  | cons d rest ih =>
    intro c h
    by_cases hp : p2 d = true
    · rw [List.dropWhile_cons, if_pos hp] at h
      exact ih c h
    · rw [List.dropWhile_cons, if_neg hp, List.head?_cons, Option.some_inj] at h
      subst h
      exact Bool.eq_false_iff.mpr hp

/-- Stripping is idempotent. -/
theorem stripWs_idem (l : List Char) : stripWs (stripWs l) = stripWs l := by
  by_cases hx : (l.dropWhile isPyWs).reverse.dropWhile isPyWs = []
  · have hs : stripWs l = [] := by
      rw [stripWs, hx]
      rfl
    rw [hs]
    rfl
  · have hshead : ∀ c, (stripWs l).head? = some c → isPyWs c = false := by
      intro c hc
      rw [stripWs, List.head?_reverse] at hc
      obtain ⟨t, ht⟩ := List.dropWhile_suffix isPyWs
        (l := (l.dropWhile isPyWs).reverse)
      have h4 : ((l.dropWhile isPyWs).reverse.dropWhile isPyWs).getLast? =
          (l.dropWhile isPyWs).reverse.getLast? := by
        conv_rhs => rw [← ht]
        exact (List.getLast?_append_of_ne_nil t hx).symm
      rw [h4, List.getLast?_reverse] at hc
      exact head_dropWhile_not isPyWs l c hc
    have hslast : ∀ c, (stripWs l).getLast? = some c → isPyWs c = false := by
      intro c hc
      rw [stripWs, List.getLast?_reverse] at hc
      exact head_dropWhile_not isPyWs (l.dropWhile isPyWs).reverse c hc
    rw [stripWs, dropWhile_eq_self_of_head isPyWs (stripWs l) hshead,
      dropWhile_eq_self_of_head isPyWs (stripWs l).reverse
        (by
          intro c hc
          rw [List.head?_reverse] at hc
          exact hslast c hc),
      List.reverse_reverse]

/-- The page number tail matcher fails on digit free text. -/
theorem pageTail_none (cs : List Char) (h : ∀ c ∈ cs, c.isDigit = false) :
    pageTail cs = none := by
  have hds : (cs.drop (cs.takeWhile isPyWs).length).takeWhile Char.isDigit = [] := by
    cases hd : (cs.drop (cs.takeWhile isPyWs).length).takeWhile Char.isDigit with
    | nil => rfl
    | cons e t =>
      exfalso
      have he1 : e ∈ (cs.drop (cs.takeWhile isPyWs).length).takeWhile Char.isDigit := by
        rw [hd]
        exact List.mem_cons_self e t
      have he2 : Char.isDigit e = true := List.mem_takeWhile_imp he1
      have he3 : e ∈ cs :=
        List.mem_of_mem_drop ((List.takeWhile_sublist _).subset he1)
      rw [h e he3] at he2
      cases he2
  rw [pageTail]
  by_cases hw : (cs.takeWhile isPyWs).isEmpty
  · simp only [hw, if_true]
  · simp only [hw, if_false, hds]
    rfl

/-- The page number matcher fails on digit free text. -/
theorem pageMatchLen_none (prev : Bool) (cs : List Char)
    (h : ∀ c ∈ cs, c.isDigit = false) : pageMatchLen prev cs = none := by
  cases prev with
  | true => rfl
  | false =>
    match cs, h with
    | [], _ => rfl
    | [c1], _ => rfl
    | [c1, c2], _ => rfl
    | [c1, c2, c3], _ => rfl
    | c1 :: c2 :: c3 :: c4 :: rest, h =>
      show (if c1 = 'P' ∧ c2 = 'a' ∧ c3 = 'g' ∧ c4 = 'e' then
        match pageTail rest with
        | some n => some (4 + n)
        | none => none
        else none) = none
      by_cases hc : c1 = 'P' ∧ c2 = 'a' ∧ c3 = 'g' ∧ c4 = 'e'
      · rw [if_pos hc, pageTail_none rest (fun c hcm => h c (by simp [hcm]))]
      · rw [if_neg hc]

/-- The page number removal is the identity on digit free text. -/
theorem removePageAux_id (fuel : Nat) :
    ∀ (prev : Bool) (cs : List Char), (∀ c ∈ cs, c.isDigit = false) →
      removePageAux fuel prev cs = cs := by
  induction fuel with
  | zero =>
    intro prev cs _
    cases cs <;> rfl
  | succ fuel2 ih =>
    intro prev cs h
    cases cs with
    | nil => rfl
    | cons c rest =>
      rw [removePageAux, pageMatchLen_none prev (c :: rest) h]
      rw [ih (isWordChar c) rest (fun d hd => h d (List.mem_cons_of_mem c hd))]

/-- removePage is the identity on digit free text. -/
theorem removePage_id (cs : List Char) (h : ∀ c ∈ cs, c.isDigit = false) :
    removePage cs = cs := removePageAux_id cs.length false cs h

/-- The N of M matcher fails on digit free text. -/
theorem nofmMatchLen_none (prev : Bool) (cs : List Char)
    (h : ∀ c ∈ cs, c.isDigit = false) : nofmMatchLen prev cs = none := by
  cases prev with
  | true => rfl
  | false =>
    have hds : cs.takeWhile Char.isDigit = [] := by
      cases hd : cs.takeWhile Char.isDigit with
      | nil => rfl
      | cons e t =>
        exfalso
        have he1 : e ∈ cs.takeWhile Char.isDigit := by
          rw [hd]
          exact List.mem_cons_self e t
        have he2 : Char.isDigit e = true := List.mem_takeWhile_imp he1
        have he3 : e ∈ cs := (List.takeWhile_sublist _).subset he1
        rw [h e he3] at he2
        cases he2
    rw [nofmMatchLen]
    simp only [Bool.false_eq_true, if_false, hds]
    rfl

/-- The N of M removal is the identity on digit free text. -/
theorem removeNofMAux_id (fuel : Nat) :
    ∀ (prev : Bool) (cs : List Char), (∀ c ∈ cs, c.isDigit = false) →
      removeNofMAux fuel prev cs = cs := by
  induction fuel with
  | zero =>
    intro prev cs _
    cases cs <;> rfl
  | succ fuel2 ih =>
    intro prev cs h
    cases cs with
    | nil => rfl
    | cons c rest =>
      rw [removeNofMAux, nofmMatchLen_none prev (c :: rest) h]
      rw [ih (isWordChar c) rest (fun d hd => h d (List.mem_cons_of_mem c hd))]

/-- removeNofM is the identity on digit free text. -/
theorem removeNofM_id (cs : List Char) (h : ∀ c ∈ cs, c.isDigit = false) :
    removeNofM cs = cs := removeNofMAux_id cs.length false cs h

/-- The URL matcher fails on text without the letter h. -/
theorem urlMatchLen_none (cs : List Char) (h : 'h' ∉ cs) :
    urlMatchLen cs = none := by
  match cs, h with
  | [], _ => rfl
  | [c1], _ => rfl
  | [c1, c2], _ => rfl
  | [c1, c2, c3], _ => rfl
  | c1 :: c2 :: c3 :: c4 :: rest, h =>
    show (if c1 = 'h' ∧ c2 = 't' ∧ c3 = 't' ∧ c4 = 'p' then
      if (rest.takeWhile (fun c => !isPyWs c)).isEmpty then none
      else some (4 + (rest.takeWhile (fun c => !isPyWs c)).length)
      else none) = none
    by_cases hc : c1 = 'h' ∧ c2 = 't' ∧ c3 = 't' ∧ c4 = 'p'
    · exfalso
      apply h
      rw [hc.1]
      exact List.mem_cons_self 'h' _
    · rw [if_neg hc]

/-- The URL removal is the identity on text without the letter h. -/
theorem removeUrlsAux_id (fuel : Nat) :
    ∀ cs : List Char, 'h' ∉ cs → removeUrlsAux fuel cs = cs := by
  induction fuel with
  | zero =>
    intro cs _
    cases cs <;> rfl
  | succ fuel2 ih =>
    intro cs h
    cases cs with
    | nil => rfl
    | cons c rest =>
      rw [removeUrlsAux, urlMatchLen_none (c :: rest) h]
      rw [ih rest (fun hd => h (List.mem_cons_of_mem c hd))]

/-- removeUrls is the identity on text without the letter h. -/
theorem removeUrls_id (cs : List Char) (h : 'h' ∉ cs) : removeUrls cs = cs :=
  removeUrlsAux_id cs.length cs h

/-- The email removal is the identity on text without an at sign. -/
theorem removeEmailsAux_id (fuel : Nat) :
    ∀ cs : List Char, '@' ∉ cs → removeEmailsAux fuel cs = cs := by
  induction fuel with
  | zero =>
    intro cs _
    cases cs <;> rfl
  | succ fuel2 ih =>
    intro cs h
    cases cs with
    | nil => rfl
    | cons c rest =>
      have hrest : '@' ∉ rest := fun hd => h (List.mem_cons_of_mem c hd)
      by_cases hws : isPyWs c = true
      · rw [removeEmailsAux]
        simp only [hws, if_true]
        rw [ih rest hrest]
      · have hrun : (((c :: rest.takeWhile (fun d => !isPyWs d)).drop 1).dropLast).contains '@' =
            false := by
          cases hcont : (((c :: rest.takeWhile (fun d => !isPyWs d)).drop 1).dropLast).contains '@' with
          | false => rfl
          | true =>
            exfalso
            have hm : '@' ∈ ((c :: rest.takeWhile (fun d => !isPyWs d)).drop 1).dropLast := by
              simpa using hcont
            have hm2 : '@' ∈ (c :: rest.takeWhile (fun d => !isPyWs d)).drop 1 :=
              List.dropLast_subset _ hm
            have hm3 : '@' ∈ rest.takeWhile (fun d => !isPyWs d) := by
              simpa using hm2
            exact hrest ((List.takeWhile_sublist _).subset hm3)
        rw [removeEmailsAux]
        simp only [hws, if_false, hrun]
        simp only [Bool.false_eq_true, if_false]
        rw [ih rest hrest]

/-- removeEmails is the identity on text without an at sign. -/
theorem removeEmails_id (cs : List Char) (h : '@' ∉ cs) : removeEmails cs = cs :=
  removeEmailsAux_id cs.length cs h

/-! Claim theorems. -/

/-- C1 counterexample: with a single ranked candidate whose combined
score 0.2 is below the confidence threshold 0.3, ask_api leaves the
context list empty (it is only built when at least one candidate survives
the threshold), refuting the claim that contexts is still populated with
one entry per ranked candidate. -/
theorem c1_counter :
    synthesizeAnswer [rLow] = (none, []) ∧ [rLow] ≠ [] := by
  constructor
  · have h : ∀ r ∈ [rLow], r.score < 3 / 10 := by
      intro r hr
      simp only [List.mem_singleton] at hr
      subst hr
      norm_num [rLow]
    have hf : [rLow].filter (fun r => decide ((3 : ℚ) / 10 ≤ r.score)) = [] := by
      rw [List.filter_eq_nil_iff]
      intro r hr
      simpa using not_le.mpr (h r hr)
    simp [synthesizeAnswer, hf]
  · exact List.cons_ne_nil _ _

/-- C1 amended: for a nonempty ranked result list in which every combined
score is below the confidence threshold 0.3, ask_api produces answer None
together with an empty context list: the contexts are only populated when
at least one candidate survives the threshold. -/
theorem c1_thresholdFailGivesNoneAndNoContexts (rs : List Ranked) (hne : rs ≠ [])
    (h : ∀ r ∈ rs, r.score < 3 / 10) : synthesizeAnswer rs = (none, []) := by
  have hf : rs.filter (fun r => decide ((3 : ℚ) / 10 ≤ r.score)) = [] := by
    rw [List.filter_eq_nil_iff]
    intro r hr
    simpa using not_le.mpr (h r hr)
  simp [synthesizeAnswer, hf, hne]

/-- C1 witness: the amended theorem applied to a concrete one element
result list with score 0.1. -/
theorem c1_witness :
    ([rLow2] ≠ [] ∧ ∀ r ∈ [rLow2], r.score < 3 / 10) ∧
      synthesizeAnswer [rLow2] = (none, []) := by
  have h1 : ([rLow2] : List Ranked) ≠ [] := List.cons_ne_nil _ _
  have h2 : ∀ r ∈ [rLow2], r.score < 3 / 10 := by
    intro r hr
    simp only [List.mem_singleton] at hr
    subst hr
    norm_num [rLow2]
  exact ⟨⟨h1, h2⟩, c1_thresholdFailGivesNoneAndNoContexts [rLow2] h1 h2⟩

/-- C2 counterexample: chunking the 375 word input of 25 fifteen word
sentences with chunk size 300 and overlap 50 does not return 2 chunks. -/
theorem c2_counter : ¬ (chunkText text25 300 50).length = 2 := by decide

/-- C2 amended: on the scenario input the chunker returns 6 chunks, and
because the 50 sentence overlap window is at least as long as the 20
sentence chunk being closed, the whole first chunk is carried forward:
the second chunk is the first chunk followed by one more sentence, not
just its last three or four sentences. -/
theorem c2_chunkScenario :
    (chunkText text25 300 50).length = 6 ∧
      (chunkText text25 300 50).getD 1 [] =
        (chunkText text25 300 50).getD 0 [] ++ (' ' :: sentenceA) := by decide

/-- C3 counterexample: two identical candidates with identical vector and
BM25 scores give equal combined scores, yet rerank returns them in the
order chunk index 1 then 0: reversing the stable ascending argsort
reverses the original order on ties, so the claimed stability (original
order preserved for equal scores) is false. -/
theorem c3_counter :
    ((rerank stop0 [0, 0] ['q'] [cand0, cand1] [1 / 2, 1 / 2] (3 / 5)).map
        (fun r => r.chunk_index) = [1, 0] ∧
      ((rerank stop0 [0, 0] ['q'] [cand0, cand1] [1 / 2, 1 / 2] (3 / 5)).map
          (fun r => r.score)).getD 0 0 =
        ((rerank stop0 [0, 0] ['q'] [cand0, cand1] [1 / 2, 1 / 2] (3 / 5)).map
          (fun r => r.score)).getD 1 0) ∧
      ([1, 0] : List Nat) ≠ [0, 1] := by
  have hmaps :
      rerank stop0 [0, 0] ['q'] [cand0, cand1] [1 / 2, 1 / 2] (3 / 5) =
        (rerankOrder (combinedScores (3 / 5) [1 / 2, 1 / 2] [0, 0]
            [titleMatch stop0 ['q'] ['t'], titleMatch stop0 ['q'] ['t']]
            [lengthScore ['x'], lengthScore ['x']])).map (fun i =>
          let c := ([cand0, cand1] : List Cand).getD i default
          { chunk_text := c.chunk_text
            cleaned_text := c.cleaned_text
            document_title := c.document_title
            document_url := c.document_url
            chunk_index := c.chunk_index
            score := (combinedScores (3 / 5) [1 / 2, 1 / 2] [0, 0]
                [titleMatch stop0 ['q'] ['t'], titleMatch stop0 ['q'] ['t']]
                [lengthScore ['x'], lengthScore ['x']]).getD i 0
            vector_score := ([1 / 2, 1 / 2] : List ℚ).getD i 0
            bm25_score := (minmaxNorm [0, 0]).getD i 0
            title_score := ([titleMatch stop0 ['q'] ['t'],
              titleMatch stop0 ['q'] ['t']] : List ℚ).getD i 0 }) := by
    rw [rerank]
    rfl
  have hord : rerankOrder (combinedScores (3 / 5) [1 / 2, 1 / 2] [0, 0]
      [titleMatch stop0 ['q'] ['t'], titleMatch stop0 ['q'] ['t']]
      [lengthScore ['x'], lengthScore ['x']]) = [1, 0] := by
    rw [combinedScores_pair, rerankOrder, argsortAsc_pair]
    rfl
  rw [hmaps, hord]
  refine ⟨⟨rfl, ?_⟩, by decide⟩
  rw [combinedScores_pair]
  rfl

/-- C3 amended: rerank returns the candidates sorted descending by
combined score, but ties are emitted in reverse of the original candidate
order, because the source reverses a stable ascending argsort.  The order
indices are pairwise descending on combined scores with ties broken
towards the larger original position, and form a permutation of all
candidate positions. -/
theorem c3_rerankSortedDesc :
    (∀ (stop : List Char → Bool) (bm25Raw : List ℚ) (query : List Char)
        (corpus : List Cand) (vectorScores : List ℚ) (alpha : ℚ),
      List.Sorted (· ≥ ·)
        ((rerank stop bm25Raw query corpus vectorScores alpha).map
          (fun r => r.score))) ∧
      (∀ c : List ℚ,
        List.Pairwise (fun i j => c.getD j 0 < c.getD i 0 ∨
          (c.getD i 0 = c.getD j 0 ∧ j ≤ i)) (rerankOrder c) ∧
        (rerankOrder c).Perm (List.range c.length)) := by
  constructor
  · intro stop bm25Raw query corpus vectorScores alpha
    rw [rerank]
    rw [List.map_map]
    apply List.pairwise_map.mpr
    refine (rerankOrder_pairwise _).imp ?_
    intro a b hab
    show (combinedScores _ _ _ _ _).getD b 0 ≤ (combinedScores _ _ _ _ _).getD a 0
    rcases hab with h | ⟨he, _⟩
    · exact le_of_lt h
    · exact le_of_eq he.symm
  · exact fun c => ⟨rerankOrder_pairwise c, rerankOrder_perm c⟩

/-- C4 counterexample: with a store honouring its contract (two hits for
a request of two results), search_embeddings called with k = 1 returns
two candidates, because it requests and returns k * 2 results; so the
claim that it returns at most k candidates is false. -/
theorem c4_counter :
    (searchEmbeddings (some store2) ['q'] 1).length = 2 ∧
      ¬ (searchEmbeddings (some store2) ['q'] 1).length ≤ 1 := by
  constructor
  · rfl
  · intro h
    have : (searchEmbeddings (some store2) ['q'] 1).length = 2 := rfl
    omega

/-- C4 amended: when the store is available and returns a well formed
response of at most k * 2 hits with ascending distances, the formatted
result has at most k * 2 candidates (not k), ordered by descending score,
with each score equal to one minus the corresponding distance; when the
store is unavailable the result is the empty sequence. -/
theorem c4_searchSpec (query : List Char) (k : Nat)
    (f : List Char → Nat → Except Unit QueryResp) (resp : QueryResp)
    (hf : f (cleanChunkText query) (k * 2) = Except.ok resp)
    (hdist : resp.distances.length = resp.ids.length)
    (hn : resp.ids.length ≤ k * 2)
    (hsort : List.Sorted (· ≤ ·) resp.distances) :
    (searchEmbeddings (some f) query k).length ≤ k * 2 ∧
      List.Sorted (· ≥ ·)
        ((searchEmbeddings (some f) query k).map (fun c => c.score)) ∧
      (∀ i, i < (searchEmbeddings (some f) query k).length →
        ((searchEmbeddings (some f) query k).getD i default).score =
          1 - resp.distances.getD i 0) ∧
      searchEmbeddings none query k = [] := by
  have hout : searchEmbeddings (some f) query k = formatResults resp := by
    simp only [searchEmbeddings, hf]
  by_cases hids : resp.ids.isEmpty
  · have hnil : formatResults resp = [] := by rw [formatResults, if_pos hids]
    rw [hout, hnil]
    exact ⟨by simp, List.sorted_nil, fun i hi => absurd hi (by simp), rfl⟩
  · have hidsne : resp.ids ≠ [] := by simpa [List.isEmpty_iff] using hids
    have hdne : resp.distances ≠ [] := by
      intro hc
      apply hidsne
      apply List.length_eq_zero.mp
      rw [← hdist, hc, List.length_nil]
    have hne2 : resp.distances.isEmpty = false := by
      cases hd : resp.distances with
      | nil => exact absurd hd hdne
      | cons a t => rfl
    have hmap : formatResults resp =
        (List.range resp.ids.length).map (fun i =>
          ({ chunk_text := (resp.metadatas.getD i default).original_text
             cleaned_text := resp.documents.getD i default
             document_title := (resp.metadatas.getD i default).document_title
             document_url := (resp.metadatas.getD i default).document_url
             chunk_index := (resp.metadatas.getD i default).chunk_index
             score := if resp.distances.isEmpty then 1
               else 1 - resp.distances.getD i 0 } : Cand)) := by
      rw [formatResults, if_neg hids]
    have hgetDle : ∀ a b : Nat, a < b → b < resp.ids.length →
        resp.distances.getD a 0 ≤ resp.distances.getD b 0 := by
      intro a b hab hb
      have ha2 : a < resp.distances.length := by omega
      have hb2 : b < resp.distances.length := by omega
      have := List.pairwise_iff_getElem.mp hsort a b ha2 hb2 hab
      rw [List.getD_eq_getElem?_getD, List.getElem?_eq_getElem ha2,
        List.getD_eq_getElem?_getD, List.getElem?_eq_getElem hb2]
      exact this
    refine ⟨?_, ?_, ?_, rfl⟩
    · rw [hout, hmap, List.length_map, List.length_range]
      exact hn
    · rw [hout, hmap, List.map_map]
      apply List.pairwise_map.mpr
      apply (List.pairwise_lt_range resp.ids.length).imp_of_mem
      intro a b ha hb hab
      have ha2 := List.mem_range.mp ha
      have hb2 := List.mem_range.mp hb
      show (if resp.distances.isEmpty then 1 else 1 - resp.distances.getD a 0) ≥
        (if resp.distances.isEmpty then 1 else 1 - resp.distances.getD b 0)
      rw [hne2]
      simp only [Bool.false_eq_true, if_false]
      have := hgetDle a b hab hb2
      linarith
    · intro i hi
      rw [hout, hmap, List.length_map, List.length_range] at hi
      rw [hout, hmap, getD_map_range _ _ i hi]
      show (if resp.distances.isEmpty then 1 else 1 - resp.distances.getD i 0) =
        1 - resp.distances.getD i 0
      rw [hne2]
      simp only [Bool.false_eq_true, if_false]

/-- C4 witness: the amended theorem applied to a concrete available store
with one hit and k = 1. -/
theorem c4_witness :
    (store1 (cleanChunkText ['q']) (1 * 2) = Except.ok resp1 ∧
        resp1.distances.length = resp1.ids.length ∧
        resp1.ids.length ≤ 1 * 2 ∧
        List.Sorted (· ≤ ·) resp1.distances) ∧
      ((searchEmbeddings (some store1) ['q'] 1).length ≤ 1 * 2 ∧
        List.Sorted (· ≥ ·)
          ((searchEmbeddings (some store1) ['q'] 1).map (fun c => c.score)) ∧
        (∀ i, i < (searchEmbeddings (some store1) ['q'] 1).length →
          ((searchEmbeddings (some store1) ['q'] 1).getD i default).score =
            1 - resp1.distances.getD i 0) ∧
        searchEmbeddings none ['q'] 1 = []) :=
  ⟨⟨rfl, rfl, by decide, List.sorted_singleton 0⟩,
    c4_searchSpec ['q'] 1 store1 resp1 rfl rfl (by decide)
      (List.sorted_singleton 0)⟩

/-- C5 counterexample: clean_text is not idempotent.  On the input Page
space http colon slash slash x space 5, the URL removal runs after the
page number removal, so the first pass produces Page space 5, and only
the second pass removes the page number pattern this exposes. -/
theorem c5_counter : cleanText (cleanText cx5) ≠ cleanText cx5 := by decide

/-- C5 amended: clean_text is idempotent on every input containing no
decimal digit, no at sign and no letter h, so that the page number,
N of M, URL and email removal patterns cannot fire on either pass; the
remaining passes (collapsing dot runs, hyphen runs and whitespace runs
and stripping the ends) are jointly idempotent on all inputs. -/
theorem c5_cleanTextIdemRestricted (cs : List Char)
    (hd : ∀ c ∈ cs, c.isDigit = false) (ha : '@' ∉ cs) (hh : 'h' ∉ cs) :
    cleanText (cleanText cs) = cleanText cs := by
  by_cases hcs : cs.isEmpty
  · have h0 : cs = [] := by simpa [List.isEmpty_iff] using hcs
    subst h0
    rfl
  · have h1 : removePage cs = cs := removePage_id cs hd
    have h2 : removeNofM cs = cs := removeNofM_id cs hd
    have h3 : removeUrls cs = cs := removeUrls_id cs hh
    have h4 : removeEmails cs = cs := removeEmails_id cs ha
    have hy : cleanText cs =
        stripWs (collapseRuns isPyWs ' ' (collapseRuns (fun c => c = '-') '-'
          (collapseRuns (fun c => c = '.') '.' cs))) := by
      rw [cleanText, if_neg hcs, h1, h2, h3, h4]
    have hcolD : CollapsedP (fun c => c = '.') '.' (cleanText cs) := by
      rw [hy]
      apply stripWs_pres_collapsed
      apply collapseRuns_pres_collapsed _ _ _ _ (by decide)
      apply collapseRuns_pres_collapsed _ _ _ _ (by decide)
      exact collapseRuns_collapsed _ _ _
    have hcolH : CollapsedP (fun c => c = '-') '-' (cleanText cs) := by
      rw [hy]
      apply stripWs_pres_collapsed
      apply collapseRuns_pres_collapsed _ _ _ _ (by decide)
      exact collapseRuns_collapsed _ _ _
    have hcolW : CollapsedP isPyWs ' ' (cleanText cs) := by
      rw [hy]
      apply stripWs_pres_collapsed
      exact collapseRuns_collapsed _ _ _
    have hysub : ∀ c ∈ cleanText cs, c = ' ' ∨ c = '-' ∨ c = '.' ∨ c ∈ cs := by
      intro c hc
      rw [hy] at hc
      have hc1 := mem_stripWs _ _ hc
      rcases mem_collapseRunsAux isPyWs ' ' _ false c hc1 with rfl | hc2
      · exact Or.inl rfl
      rcases mem_collapseRunsAux _ '-' _ false c hc2 with rfl | hc3
      · exact Or.inr (Or.inl rfl)
      rcases mem_collapseRunsAux _ '.' _ false c hc3 with rfl | hc4
      · exact Or.inr (Or.inr (Or.inl rfl))
      · exact Or.inr (Or.inr (Or.inr hc4))
    have hyd : ∀ c ∈ cleanText cs, c.isDigit = false := by
      intro c hc
      rcases hysub c hc with rfl | rfl | rfl | hmem
      · rfl
      · rfl
      · rfl
      · exact hd c hmem
    have hya : '@' ∉ cleanText cs := by
      intro hc
      rcases hysub '@' hc with h5 | h5 | h5 | hmem
      · exact absurd h5 (by decide)
      · exact absurd h5 (by decide)
      · exact absurd h5 (by decide)
      · exact ha hmem
    have hyh : 'h' ∉ cleanText cs := by
      intro hc
      rcases hysub 'h' hc with h5 | h5 | h5 | hmem
      · exact absurd h5 (by decide)
      · exact absurd h5 (by decide)
      · exact absurd h5 (by decide)
      · exact hh hmem
    by_cases hye : (cleanText cs).isEmpty
    · have h0 : cleanText cs = [] := by simpa [List.isEmpty_iff] using hye
      rw [h0]
      rfl
    · rw [cleanText, if_neg hye, removePage_id _ hyd, removeNofM_id _ hyd,
        removeUrls_id _ hyh, removeEmails_id _ hya,
        collapseRuns_id_of_collapsed _ _ _ hcolD,
        collapseRuns_id_of_collapsed _ _ _ hcolH,
        collapseRuns_id_of_collapsed _ _ _ hcolW, hy]
      exact stripWs_idem _

/-- C5 witness: the restricted idempotence applied to a concrete digit
free input with a doubled space. -/
theorem c5_witness :
    ((∀ c ∈ wx5, c.isDigit = false) ∧ '@' ∉ wx5 ∧ 'h' ∉ wx5) ∧
      cleanText (cleanText wx5) = cleanText wx5 :=
  ⟨⟨by decide, by decide, by decide⟩,
    c5_cleanTextIdemRestricted wx5 (by decide) (by decide) (by decide)⟩

/-- C6: on a nonempty score list with positive variance, the min max
normalized scores all lie in the unit interval, a position holding the
minimum maps to 0, a position holding the maximum maps to 1, and both 0
and 1 are attained; with zero variance every normalized score is one
half. -/
theorem c6_minmaxNormSpec (xs : List ℚ) (hne : xs ≠ []) :
    (listMin xs < listMax xs →
      (∀ i, i < xs.length →
        0 ≤ (minmaxNorm xs).getD i 0 ∧ (minmaxNorm xs).getD i 0 ≤ 1) ∧
      (∀ i, i < xs.length → xs.getD i 0 = listMin xs →
        (minmaxNorm xs).getD i 0 = 0) ∧
      (∀ i, i < xs.length → xs.getD i 0 = listMax xs →
        (minmaxNorm xs).getD i 0 = 1) ∧
      (∃ i, i < xs.length ∧ (minmaxNorm xs).getD i 0 = 0) ∧
      (∃ i, i < xs.length ∧ (minmaxNorm xs).getD i 0 = 1)) ∧
    (listMin xs = listMax xs →
      ∀ i, i < xs.length → (minmaxNorm xs).getD i 0 = 1 / 2) := by
  constructor
  · intro hv
    have hd : 0 < listMax xs - listMin xs := sub_pos.mpr hv
    have hmin0 : ∀ i, i < xs.length → xs.getD i 0 = listMin xs →
        (minmaxNorm xs).getD i 0 = 0 := by
      intro i hi hx
      rw [minmaxNorm_getD xs i hi, if_pos hv, hx, sub_self, zero_div]
    have hmax1 : ∀ i, i < xs.length → xs.getD i 0 = listMax xs →
        (minmaxNorm xs).getD i 0 = 1 := by
      intro i hi hx
      rw [minmaxNorm_getD xs i hi, if_pos hv, hx, div_self (ne_of_gt hd)]
    refine ⟨?_, hmin0, hmax1, ?_, ?_⟩
    · intro i hi
      rw [minmaxNorm_getD xs i hi, if_pos hv]
      have hmem := getD_mem_rat xs i hi
      constructor
      · exact div_nonneg (sub_nonneg.mpr (listMin_le xs _ hmem)) (le_of_lt hd)
      · rw [div_le_one hd]
        exact sub_le_sub_right (le_listMax xs _ hmem) _
    · obtain ⟨⟨i, hil⟩, hg⟩ := List.mem_iff_get.mp (listMin_mem xs hne)
      refine ⟨i, hil, hmin0 i hil ?_⟩
      rw [List.getD_eq_getElem xs 0 hil]
      simpa using hg
    · obtain ⟨⟨i, hil⟩, hg⟩ := List.mem_iff_get.mp (listMax_mem xs hne)
      refine ⟨i, hil, hmax1 i hil ?_⟩
      rw [List.getD_eq_getElem xs 0 hil]
      simpa using hg
  · intro hv i hi
    rw [minmaxNorm_getD xs i hi, if_neg (by rw [hv]; exact lt_irrefl _)]

/-- C6 witness: the normalization statement applied to the concrete score
list with entries 0 and 1. -/
theorem c6_witness :
    (([0, 1] : List ℚ) ≠ [] ∧ listMin [0, 1] < listMax [0, 1]) ∧
      (∀ i, i < ([0, 1] : List ℚ).length →
        0 ≤ (minmaxNorm [0, 1]).getD i 0 ∧ (minmaxNorm [0, 1]).getD i 0 ≤ 1) ∧
      (∃ i, i < ([0, 1] : List ℚ).length ∧ (minmaxNorm [0, 1]).getD i 0 = 0) ∧
      (∃ i, i < ([0, 1] : List ℚ).length ∧ (minmaxNorm [0, 1]).getD i 0 = 1) := by
  have hne : ([0, 1] : List ℚ) ≠ [] := List.cons_ne_nil _ _
  have hv : listMin [0, 1] < listMax [0, 1] := by
    show listMin [0, 1] < listMax [0, 1]
    norm_num [listMin, listMax]
  have h := (c6_minmaxNormSpec [0, 1] hne).1 hv
  exact ⟨⟨hne, hv⟩, h.1, h.2.2.2.1, h.2.2.2.2⟩

/-- C7: fusion monotonicity.  Increasing a single candidate's raw vector
similarity score, holding every other vector score and the BM25, title
and length inputs fixed, never decreases that candidate's combined score
alpha * vector_norm + 0.3 * bm25_norm + 0.05 * title + 0.05 * length for
any nonnegative alpha. -/
theorem c7_fusionMonotone (alpha : ℚ) (halpha : 0 ≤ alpha)
    (pre suf bm25Raw titleS lenS : List ℚ) (v w : ℚ) (hvw : v ≤ w) :
    (combinedScores alpha (pre ++ v :: suf) bm25Raw titleS lenS).getD pre.length 0 ≤
      (combinedScores alpha (pre ++ w :: suf) bm25Raw titleS lenS).getD pre.length 0 := by
  rw [combinedScores, combinedScores, zipWith4_getD, zipWith4_getD]
  have hlv : (minmaxNorm (pre ++ v :: suf)).length = pre.length + 1 + suf.length := by
    rw [minmaxNorm_length, List.length_append, List.length_cons]
    omega
  have hlw : (minmaxNorm (pre ++ w :: suf)).length = pre.length + 1 + suf.length := by
    rw [minmaxNorm_length, List.length_append, List.length_cons]
    omega
  by_cases hc : pre.length < (minmaxNorm (pre ++ v :: suf)).length ∧
      pre.length < (minmaxNorm bm25Raw).length ∧
      pre.length < titleS.length ∧ pre.length < lenS.length
  · rw [if_pos hc, if_pos (by rw [hlw]; rw [hlv] at hc; exact hc)]
    have hmono := minmaxNorm_update_mono pre suf v w hvw
    have h2 := mul_le_mul_of_nonneg_left hmono halpha
    linarith
  · rw [if_neg hc, if_neg (by rw [hlw]; rw [hlv] at hc; exact hc)]

/-- C7 witness: the monotonicity statement applied to concrete inputs,
with the default alpha 0.6, vector score raised from one half to one. -/
theorem c7_witness :
    ((0 : ℚ) ≤ 3 / 5 ∧ (1 : ℚ) / 2 ≤ 1) ∧
      (combinedScores (3 / 5) ([0] ++ (1 / 2) :: []) [1, 2] [0, 0] [1, 1]).getD
          ([0] : List ℚ).length 0 ≤
        (combinedScores (3 / 5) ([0] ++ (1 : ℚ) :: []) [1, 2] [0, 0] [1, 1]).getD
          ([0] : List ℚ).length 0 :=
  ⟨⟨by norm_num, by norm_num⟩,
    c7_fusionMonotone (3 / 5) (by norm_num) [0] [] [1, 2] [0, 0] [1, 1]
      (1 / 2) 1 (by norm_num)⟩

/-- C8 counterexample: on the text of one exclamation mark followed by
four letters with limit 3, the only terminator inside the window sits at
index 0, and because the source tests sentence_end > 0 (not >= 0) the
code hard cuts and appends three dots, instead of cutting after the
terminator and appending two dots as the claim predicts. -/
theorem c8_counter :
    truncateAnswer ['!', 'a', 'a', 'a', 'a'] 3 = ['!', 'a', 'a', '.', '.', '.'] ∧
      ['!', 'a', 'a', '.', '.', '.'] ≠ ['!', '.', '.'] := by decide

/-- C8 amended: the output of truncate_answer never exceeds the limit
plus three characters; a text within the limit is returned unchanged; for
a longer text, if some terminator occurs at a positive index of the
window then the result cuts immediately after the last terminator of the
window (itself at a positive index) and appends two dots, and if no
terminator occurs at a positive index (even when one sits at index 0)
the window is hard cut and three dots are appended. -/
theorem c8_truncateSpec (text : List Char) (m : Nat) :
    (truncateAnswer text m).length ≤ m + 3 ∧
      (text.length ≤ m → truncateAnswer text m = text) ∧
      (m < text.length →
        ((∃ j : Nat, 0 < j ∧ j < (text.take m).length ∧
            isTermin ((text.take m).getD j ' ') = true) →
          ∃ e : Nat, 0 < e ∧ e < (text.take m).length ∧
            isTermin ((text.take m).getD e ' ') = true ∧
            (∀ j : Nat, e < j → j < (text.take m).length →
              isTermin ((text.take m).getD j ' ') = false) ∧
            truncateAnswer text m = (text.take m).take (e + 1) ++ ['.', '.']) ∧
        ((∀ j : Nat, 0 < j → j < (text.take m).length →
            isTermin ((text.take m).getD j ' ') = false) →
          truncateAnswer text m = text.take m ++ ['.', '.', '.'])) := by
  by_cases hlen : text.length ≤ m
  · refine ⟨?_, fun _ => ?_, fun hm => absurd hlen (by omega)⟩
    · rw [truncateAnswer, if_pos hlen]
      omega
    · rw [truncateAnswer, if_pos hlen]
  · have hm : m < text.length := by omega
    have htl : (text.take m).length = m := by
      rw [List.length_take]
      omega
    refine ⟨?_, fun h => absurd h hlen, fun _ => ⟨?_, ?_⟩⟩
    · rw [truncateAnswer, if_neg hlen]
      by_cases hp : 0 < lastTermEnd (text.take m)
      · rw [if_pos hp]
        have h1 : ((text.take m).take ((lastTermEnd (text.take m)).toNat + 1)).length ≤
            (text.take m).length := by
          rw [List.length_take]
          omega
        rw [List.length_append]
        simp only [List.length_cons, List.length_nil]
        omega
      · rw [if_neg hp, List.length_append]
        simp only [List.length_cons, List.length_nil]
        omega
    · rintro ⟨j, hj0, hjl, hjt⟩
      have hle := le_lastTermEnd_of_term (text.take m) j hjl hjt
      have hpos : 0 < lastTermEnd (text.take m) := by omega
      refine ⟨(lastTermEnd (text.take m)).toNat, by omega, ?_, ?_, ?_, ?_⟩
      · exact (lastTermEnd_getD (text.take m) (by omega)).2
      · exact (lastTermEnd_getD (text.take m) (by omega)).1
      · intro j2 hj2 hj2l
        exact lastTermEnd_maximal (text.take m) j2 (by omega) hj2l
      · rw [truncateAnswer, if_neg hlen, if_pos hpos]
    · intro hnone
      have hp : ¬ 0 < lastTermEnd (text.take m) := by
        intro hpos
        have h1 := lastTermEnd_getD (text.take m) (by omega)
        have h2 := hnone (lastTermEnd (text.take m)).toNat (by omega) h1.2
        rw [h1.1] at h2
        cases h2
      rw [truncateAnswer, if_neg hlen, if_neg hp]

/-- C8 witness: the amended theorem applied to a five character text with
limit 4, whose window has its last terminator at index 2. -/
theorem c8_witness :
    (4 < txt8.length ∧
        ∃ j : Nat, 0 < j ∧ j < (txt8.take 4).length ∧
          isTermin ((txt8.take 4).getD j ' ') = true) ∧
      ∃ e : Nat, 0 < e ∧ e < (txt8.take 4).length ∧
        isTermin ((txt8.take 4).getD e ' ') = true ∧
        (∀ j : Nat, e < j → j < (txt8.take 4).length →
          isTermin ((txt8.take 4).getD j ' ') = false) ∧
        truncateAnswer txt8 4 = (txt8.take 4).take (e + 1) ++ ['.', '.'] :=
  ⟨⟨by decide, ⟨2, by decide⟩⟩,
    ((c8_truncateSpec txt8 4).2.2 (by decide)).1 ⟨2, by decide⟩⟩

/-- C9: reprocessing is not idempotent.  Processing a one document source
list stores chunk (0, 0) and marks the document processed; running
load_sources (which resets the processed flag) and process_documents
again fails with an integrity error on the duplicate (document,
chunk_index) pair instead of replacing the chunks. -/
theorem c9_reprocessRaisesOnDuplicateChunk :
    processDocuments (fun _ => docText) (loadSources [(['d'], ['u'])] ⟨[], []⟩) =
        Except.ok ⟨[⟨0, ['d'], ['u'], true⟩], [⟨0, 0, docText⟩]⟩ ∧
      processDocuments (fun _ => docText)
          (loadSources [(['d'], ['u'])] ⟨[⟨0, ['d'], ['u'], true⟩], [⟨0, 0, docText⟩]⟩) =
        Except.error () := by decide

/-- C10: the chunk indices stored for a document by the creation loop of
process_documents are pairwise distinct, and they need not be contiguous:
a chunk with fewer than ten words is skipped while its enumeration index
is consumed, so for a three chunk list with a short middle chunk the
stored indices are 0 and 2. -/
theorem c10_storedIndicesNodup :
    (∀ (d : Nat) (cks : List (List Char)) (docs : List DocRec) (db2 : Db),
        createChunksAux d cks.enum ⟨docs, []⟩ = Except.ok db2 →
        (db2.chunks.map (fun c => c.chunk_index)).Nodup) ∧
      createChunksAux 0 ([tenWords, ['a'], tenWords]).enum ⟨[], []⟩ =
          Except.ok ⟨[], [⟨0, 0, tenWords⟩, ⟨0, 2, tenWords⟩]⟩ ∧
      storedIndices [tenWords, ['a'], tenWords] = [0, 2] ∧
      storedIndices [tenWords, ['a'], tenWords] ≠ [0, 1, 2] := by
  refine ⟨?_, by decide, by decide, by decide⟩
  intro d cks docs db2 h
  obtain ⟨t, ht, hs⟩ := createChunksAux_chunks d cks.enum ⟨docs, []⟩ db2 h
  have : (db2.chunks.map (fun c => c.chunk_index)) = t := by simpa using ht
  rw [this]
  exact hs.nodup (List.nodup_enum_map_fst _)

/-- C10 witness: the distinctness statement applied to the concrete gap
scenario. -/
theorem c10_witness :
    createChunksAux 0 ([tenWords, ['a'], tenWords]).enum ⟨[], []⟩ =
        Except.ok ⟨[], [⟨0, 0, tenWords⟩, ⟨0, 2, tenWords⟩]⟩ ∧
      (([⟨0, 0, tenWords⟩, ⟨0, 2, tenWords⟩] : List ChunkRec).map
          (fun c => c.chunk_index)).Nodup :=
  ⟨by decide,
    c10_storedIndicesNodup.1 0 [tenWords, ['a'], tenWords] []
      ⟨[], [⟨0, 0, tenWords⟩, ⟨0, 2, tenWords⟩]⟩ (by decide)⟩

end IndustrialSafetyQA
